import Mathlib

/-!
Verification of the structural diff engine of `dcm_tools` (`src/dcm_tools/diff.py`).

The engine compares two tag-keyed attribute trees (DICOM-style datasets).  A
dataset is a collection of data elements; each element has a numeric tag, a
human-readable description and a value that is either a scalar (possibly
empty) or a sequence of nested datasets.  `diff` walks the sorted union of
the tags of both sides and emits an ordered list of `Diff` records.

Modelling decisions, all taken from the source:
* pydicom datasets are insertion-ordered, duplicate-free mappings from tags
  to elements; we model them as lists of elements (`Dataset`) and state
  duplicate-freedom (`wfDS`) as a hypothesis where a claim asks for it.
  pydicom tags are integers, modelled as `Nat`; `sorted(set(...))` on tags
  is modelled by `insertionSort` after `dedup`.
* a scalar element value is modelled as `Option String`: pydicom stores
  `None` for empty elements, and any other scalar value only ever meets
  equality comparison and `str(...)` in this code, so a displayable string
  models it faithfully.
* `Diff.value_l` / `Diff.value_r` hold Python `None` (modelled `none`), a
  string (a scalar value or the `"-----"` placeholder), or — on the
  untyped mixed path — a raw `Sequence` object, hence `DiffVal`.
* the source's `Diff.prefix` field is called `pfx` here because the source
  name is a Lean keyword.
* when the left value is a `Sequence` and the right a scalar, the source
  still runs the alignment loop: `len(elem_r.value)` raises a generic
  `TypeError` on an empty (`None`) value but succeeds on a string, whose
  characters then play the role of right-hand items, so indices beyond one
  side silently yield the usual missing records, while an index present on
  both sides recurses into `diff(item, character)` and fails with a
  generic `AttributeError`.  Neither failure names the tag; both are
  modelled as `Except.error ()` (`diffSeqChars`).
* recursion over the nested tree type goes through list membership, which
  Lean cannot see as structural, so `diff` is defined through a fuel
  parameter (`diffF`) that is always called with fuel strictly larger than
  the combined size of its arguments; `diffF_eq_diff` proves the fuel is
  irrelevant above that bound and `diff_eq` recovers the source's
  recursion equation.
-/

set_option autoImplicit false

namespace DcmDiff

mutual

/-- Value of a data element: a scalar (Python `None` modelled as `none`) or
a `Sequence` of item datasets. -/
inductive Value where
  | scalar : Option String → Value
  | sequence : List (List DataElement) → Value

/-- Data element: tag, description and value, as consumed by `diff`. -/
inductive DataElement where
  | mk : Nat → String → Value → DataElement

end

/-- Dataset: the ordered collection of data elements of one tree level. -/
abbrev Dataset := List DataElement

mutual

/-- Size of a value, used as the fuel bound for `diff`'s recursion. -/
def sizeV : Value → Nat
  | .scalar _ => 1
  | .sequence items => 1 + sizeItems items

/-- Size of a list of sequence items. -/
def sizeItems : List (List DataElement) → Nat
  | [] => 0
  | ds :: rest => 1 + sizeDS ds + sizeItems rest

/-- Size of a dataset. -/
def sizeDS : List DataElement → Nat
  | [] => 0
  | e :: es => 1 + sizeE e + sizeDS es

/-- Size of a data element. -/
def sizeE : DataElement → Nat
  | .mk _ _ v => 1 + sizeV v

end

/-- Tag of a data element (`elem.tag`). -/
def DataElement.tag : DataElement → Nat
  | .mk t _ _ => t

/-- Description of a data element (`elem.description()`). -/
def DataElement.description : DataElement → String
  | .mk _ d _ => d

/-- Value of a data element (`elem.value`). -/
def DataElement.value : DataElement → Value
  | .mk _ _ v => v

/-- The three kinds of difference (`class DiffType(Enum)`). -/
inductive DiffType where
  | DIFFERENT
  | MISSING_L
  | MISSING_R
  deriving DecidableEq

/-- Display value stored in a `Diff` record: a string (scalar value or the
`"-----"` placeholder) or a raw `Sequence` (stored unexpanded by the
mixed-typed comparison path).  Python `None` is modelled by wrapping this
type in `Option`. -/
inductive DiffVal where
  | str : String → DiffVal
  | seq : List Dataset → DiffVal

/-- One reported difference (`@dataclass class Diff`).  `pfx` is the
source's `prefix` field (a Lean keyword): the tree-drawing connector set
for entries nested inside a sequence-item diff. -/
structure Diff where
  diff_type : DiffType
  tag : Nat
  description : String
  value_l : Option DiffVal
  value_r : Option DiffVal
  pfx : Option String := none

/-- Tags of a dataset, in insertion order (`list(dcm.keys())`). -/
def keys (ds : Dataset) : List Nat := ds.map DataElement.tag

/-- Element lookup by tag (`dcm[tag]`); pydicom datasets are duplicate-free
maps, so on well-formed data the first match is the only one. -/
def lookup (t : Nat) : Dataset → Option DataElement :=
  List.find? (fun e => e.tag == t)

/-- Sorted union of the tags of both sides (`sorted(set(tags_l + tags_r))`). -/
def unionTags (l r : Dataset) : List Nat :=
  List.insertionSort (· ≤ ·) ((keys l ++ keys r).dedup)

/-- How an element value is stored into a `Diff` value slot: Python `None`
becomes `none`, any other scalar its string, a `Sequence` the raw object. -/
def Value.toDiffVal : Value → Option DiffVal
  | .scalar none => none
  | .scalar (some s) => some (.str s)
  | .sequence items => some (.seq items)

/-- The comparison `elem_l.value == elem_r.value` of the source, reached
only when the left value is a scalar.  A Python scalar compared to a
`Sequence` (a `list` subclass) is never equal, without raising. -/
def valueEq (v : Option String) : Value → Bool
  | .scalar w => v == w
  | .sequence _ => false

/-- The fixed placeholder `"-----"` shown instead of sequence content. -/
def placeholder : DiffVal := .str "-----"

/-- The re-stamping loop over the nested diffs of one changed sequence
item: every entry but the last gets prefix `"├"`, the last gets `"└"`. -/
def restamp : List Diff → List Diff
  | [] => []
  | [d] => [{ d with pfx := some "└" }]
  | d :: ds => { d with pfx := some "├" } :: restamp ds

/-- Tail of the sequence-alignment loop once one side is exhausted: one
record per remaining index `i` of the other side, built by `mk i` (the
other side holds datasets in the well-typed loop and characters in the
mixed-typed one). -/
def seqTail {α : Type} (mk : Nat → Diff) : Nat → List α → List Diff
  | _, [] => []
  | i, _ :: rest => mk i :: seqTail mk (i + 1) rest

/-- The `for i in range(max(len_l, len_r))` loop of the source for a tag
whose value is a `Sequence` on both sides, with `rec` the recursive call
to `diff`, `t` the tag and `descL` the left element's description.  An
index beyond one side yields a missing record with description suffixed
`" [i]"`; an index present on both sides recursively diffs the items and, when the
nested diff is non-empty, emits a header record followed by the
re-stamped nested diffs. -/
def diffSeq (rec : Dataset → Dataset → Except Unit (List Diff))
    (t : Nat) (descL : String) :
    Nat → List Dataset → List Dataset → Except Unit (List Diff)
  | i, [], rs =>
      .ok (seqTail
        (fun j => ⟨.MISSING_L, t, descL ++ " [" ++ toString j ++ "]", none, some placeholder, none⟩) i rs)
  | i, ls, [] =>
      .ok (seqTail
        (fun j => ⟨.MISSING_R, t, descL ++ " [" ++ toString j ++ "]", some placeholder, none, none⟩) i ls)
  | i, a :: ls, b :: rs =>
      match rec a b with
      | .error e => .error e
      | .ok nested =>
        match diffSeq rec t descL (i + 1) ls rs with
        | .error e => .error e
        | .ok rest =>
          match nested with
          | [] => .ok rest
          | n0 :: ns =>
              .ok (⟨.DIFFERENT, t, "[" ++ toString i ++ "] " ++ descL,
                      some placeholder, some placeholder, some "┌"⟩
                    :: (restamp (n0 :: ns) ++ rest))

/-- The alignment loop of the source when the left value is a `Sequence`
and the right value a scalar — the source checks only the left type and
runs `range(max(len(elem_l.value), len(elem_r.value)))` regardless.  On an
empty (`None`) right value `len` raises before the loop (handled in
`tagDiff`); on a string it succeeds, each right-hand "item" being one
character: indices beyond one side yield the same missing records as the
well-typed loop, and an index present on both sides reaches
`diff(item, character)`, whose attribute access on a `str` raises a
generic `AttributeError` that does not identify the tag, modelled as
`Except.error ()`. -/
def diffSeqChars (t : Nat) (descL : String) :
    Nat → List Dataset → List Char → Except Unit (List Diff)
  | i, [], cs =>
      .ok (seqTail
        (fun j => ⟨.MISSING_L, t, descL ++ " [" ++ toString j ++ "]", none, some placeholder, none⟩) i cs)
  | i, ls, [] =>
      .ok (seqTail
        (fun j => ⟨.MISSING_R, t, descL ++ " [" ++ toString j ++ "]", some placeholder, none, none⟩) i ls)
  | _, _ :: _, _ :: _ => .error ()

/-- Body of the per-tag loop of `diff`.  A tag on one side only yields one
missing record (cardinality-prefixed description and placeholder value for
a `Sequence`); a tag on both sides dispatches on the type of the *left*
value exactly as the source does: a `Sequence` on the left enters the
alignment loop — against the right sequence's items, or, on the untyped
mixed path, against the characters of a right string scalar
(`diffSeqChars`), `len(None)` of an empty right scalar raising a generic
error first — while a scalar on the left goes to the equality
comparison. -/
def tagDiff (rec : Dataset → Dataset → Except Unit (List Diff))
    (t : Nat) (l r : Dataset) : Except Unit (List Diff) :=
  match lookup t l, lookup t r with
  | none, none => .ok []
  | none, some e =>
      match e.value with
      | .sequence items =>
          .ok [⟨.MISSING_L, t, "[" ++ toString items.length ++ "] " ++ e.description,
                none, some placeholder, none⟩]
      | .scalar v =>
          .ok [⟨.MISSING_L, t, e.description, none, (Value.scalar v).toDiffVal, none⟩]
  | some e, none =>
      match e.value with
      | .sequence items =>
          .ok [⟨.MISSING_R, t, "[" ++ toString items.length ++ "] " ++ e.description,
                some placeholder, none, none⟩]
      | .scalar v =>
          .ok [⟨.MISSING_R, t, e.description, (Value.scalar v).toDiffVal, none, none⟩]
  | some el, some er =>
      match el.value with
      | .sequence il =>
          match er.value with
          | .sequence ir => diffSeq rec t el.description 0 il ir
          | .scalar none => .error ()
          | .scalar (some s) => diffSeqChars t el.description 0 il s.data
      | .scalar v =>
          if valueEq v er.value then .ok []
          else .ok [⟨.DIFFERENT, t, el.description,
                     (Value.scalar v).toDiffVal, er.value.toDiffVal, none⟩]

/-- The tag loop of `diff`: concatenates the per-tag emissions in tag
order, propagating the error of the untyped mixed path. -/
def diffTags (rec : Dataset → Dataset → Except Unit (List Diff)) :
    List Nat → Dataset → Dataset → Except Unit (List Diff)
  | [], _, _ => .ok []
  | t :: ts, l, r =>
      match tagDiff rec t l r with
      | .error e => .error e
      | .ok c =>
        match diffTags rec ts l r with
        | .error e => .error e
        | .ok rest => .ok (c ++ rest)

/-- Fuelled form of `diff`; the fuel only serves Lean's termination
checker and is irrelevant above the size bound (`diffF_eq_diff`). -/
def diffF : Nat → Dataset → Dataset → Except Unit (List Diff)
  | 0, _, _ => .error ()
  | n + 1, l, r => diffTags (diffF n) (unionTags l r) l r

/-- The diff engine `diff(dcm_l, dcm_r)` of the source. -/
def diff (l r : Dataset) : Except Unit (List Diff) :=
  diffF (sizeDS l + sizeDS r + 1) l r

/-- Right alignment within a column, modelling Python's format spec
`f"{_str:>{_len}}"`: left-pad with spaces up to the width.  Python's
`_str[:(_len - 3)]` in the truncation below slices from the end for widths
under 3; that degenerate range is outside the formatter's use and all
theorems below assume a width of at least 3, where `Nat` subtraction
agrees with the source. -/
def format_pad (t : String) (l : Nat) : String :=
  if t.length < l then String.mk (List.replicate (l - t.length) ' ') ++ t else t

/-- The column formatter `format_str_len(_str, _len)` of the source: keep a
string strictly shorter than the width, otherwise truncate to `width - 3`
characters plus `"..."`; then right-align (`format_pad`, the f-string
`:>width`) to the width. -/
def format_str_len (s : String) (l : Nat) : String :=
  format_pad (if s.length < l then s else String.mk (s.data.take (l - 3)) ++ "...") l

/-- Leading symbol per diff type (`symbol_by_diff`). -/
def symbol_by_diff : DiffType → String
  | .DIFFERENT => "≠"
  | .MISSING_L => "<"
  | .MISSING_R => ">"

/-- Display text of one value slot: `str(value) if value is not None else
"NULL"`.  The text of a raw `Sequence` object comes from pydicom's repr;
its exact form plays no role in any claim and is fixed to a constant. -/
def strOrNull : Option DiffVal → String
  | none => "NULL"
  | some (.str s) => s
  | some (.seq _) => "<Sequence>"

/-- Description-column budget of one record: `max_len_tag - 15`, reduced
by two more when a tree-drawing connector is present.  The source tests
`if self.prefix:` (Python truthiness); the engine never produces an empty
connector string, so matching on the `Option` is faithful. -/
def Diff.descBudget (d : Diff) (max_len_tag : Nat) : Nat :=
  match d.pfx with
  | none => max_len_tag - 15
  | some _ => max_len_tag - 15 - 2

/-- Leading symbol plus optional connector (`_prefix` of `Diff.__str__`). -/
def Diff.symPart (d : Diff) : String :=
  match d.pfx with
  | none => symbol_by_diff d.diff_type
  | some p => symbol_by_diff d.diff_type ++ " " ++ p

/-- The text assembled by `Diff.__str__` before terminal colouring (the
colour wrapper is decorative and carries no behaviour). -/
def Diff.render (d : Diff) (max_len_tag max_len_val : Nat) : String :=
  d.symPart ++ " " ++ format_str_len d.description (d.descBudget max_len_tag) ++
    (" - " ++ toString d.tag
      ++ " │ " ++ format_str_len (strOrNull d.value_l) max_len_val
      ++ " │ " ++ format_str_len (strOrNull d.value_r) max_len_val)

mutual

/-- Well-formedness of a value: sequence items are well-formed datasets. -/
def wfV : Value → Bool
  | .scalar _ => true
  | .sequence items => wfItems items

/-- Well-formedness of a list of sequence items. -/
def wfItems : List (List DataElement) → Bool
  | [] => true
  | d :: rest => wfDS d && wfItems rest

/-- Well-formedness of a dataset: no two elements of one level share a
tag, recursively at every nesting level.  This is an invariant of pydicom
datasets (tag-keyed mappings), stated as a hypothesis where needed. -/
def wfDS : List DataElement → Bool
  | [] => true
  | e :: es => !(keys es).contains e.tag && wfE e && wfDS es

/-- Well-formedness of a data element. -/
def wfE : DataElement → Bool
  | .mk _ _ v => wfV v

end

mutual

/-- No empty scalar: the value is not Python `None`, recursively. -/
def neV : Value → Bool
  | .scalar v => v.isSome
  | .sequence items => neItems items

/-- No empty scalar anywhere in a list of sequence items. -/
def neItems : List (List DataElement) → Bool
  | [] => true
  | d :: rest => neDS d && neItems rest

/-- No empty scalar anywhere in a dataset. -/
def neDS : List DataElement → Bool
  | [] => true
  | e :: es => neE e && neDS es

/-- No empty scalar in a data element. -/
def neE : DataElement → Bool
  | .mk _ _ v => neV v

end

/-- Pairwise conjunction of `rec` over index-aligned items of two
sequences (indices present on both sides only). -/
def pairsAll (rec : Dataset → Dataset → Bool) : List Dataset → List Dataset → Bool
  | [], _ => true
  | _, [] => true
  | a :: ls, b :: rs => rec a b && pairsAll rec ls rs

/-- One agreement sweep: every element of the left level whose tag is
shared checks `leaf` against the right element, and recursively over
aligned items when both values are sequences. -/
def agreeElems (rec : Dataset → Dataset → Bool)
    (leaf : DataElement → DataElement → Bool) :
    List DataElement → Dataset → Bool
  | [], _ => true
  | e :: es, r =>
      (match lookup e.tag r with
       | none => true
       | some er =>
           leaf e er &&
           (match e.value, er.value with
            | .sequence il, .sequence ir => pairsAll rec il ir
            | _, _ => true)) &&
      agreeElems rec leaf es r

/-- Fuelled recursive agreement predicate. -/
def agreeF (leaf : DataElement → DataElement → Bool) :
    Nat → Dataset → Dataset → Bool
  | 0, _, _ => false
  | n + 1, l, r => agreeElems (agreeF leaf n) leaf l r

/-- Recursive agreement of two datasets under a per-element check. -/
def agreeB (leaf : DataElement → DataElement → Bool) (l r : Dataset) : Bool :=
  agreeF leaf (sizeDS l + sizeDS r + 1) l r

/-- Same value kind (scalar vs sequence) on both sides of one element. -/
def kindLeaf (e er : DataElement) : Bool :=
  match e.value, er.value with
  | .scalar _, .scalar _ => true
  | .sequence _, .sequence _ => true
  | _, _ => false

/-- Same description on both sides of one element. -/
def descLeaf (e er : DataElement) : Bool := e.description == er.description

/-- Every shared tag holds the same kind of value (scalar vs sequence) on
both sides, at every nesting level. -/
def kindsB : Dataset → Dataset → Bool := agreeB kindLeaf

/-- Every shared tag carries the same description on both sides, at every
nesting level. -/
def descsB : Dataset → Dataset → Bool := agreeB descLeaf

/-- Every tag of `l` is a tag of `r`. -/
def keysSub (l r : Dataset) : Bool := (keys l).all fun t => (keys r).contains t

/-- One structural-identity sweep over the left level: every tag must be
shared, scalar values must be equal, sequences must have equal length and
recursively identical aligned items. -/
def structElems (rec : Dataset → Dataset → Bool) :
    List DataElement → Dataset → Bool
  | [], _ => true
  | e :: es, r =>
      (match lookup e.tag r with
       | none => false
       | some er =>
           match e.value, er.value with
           | .scalar v, .scalar w => v == w
           | .sequence il, .sequence ir =>
               (il.length == ir.length) && pairsAll rec il ir
           | _, _ => false) &&
      structElems rec es r

/-- Fuelled structural identity. -/
def structF : Nat → Dataset → Dataset → Bool
  | 0, _, _ => false
  | n + 1, l, r => keysSub r l && structElems (structF n) l r

/-- Structural identity of two trees: same tag set, equal scalar values at
every shared scalar tag, and at every shared sequence tag sequences of
equal length whose item trees are pairwise structurally identical. -/
def structIdentB (l r : Dataset) : Bool := structF (sizeDS l + sizeDS r + 1) l r

/-- Exchange of the two sides of a diff type: the two missing kinds swap,
`DIFFERENT` stays. -/
def DiffType.swap : DiffType → DiffType
  | .DIFFERENT => .DIFFERENT
  | .MISSING_L => .MISSING_R
  | .MISSING_R => .MISSING_L

/-- Exchange of the two sides of a record: swaps the value slots and the
missing direction, keeping tag, description and connector. -/
def Diff.swap (d : Diff) : Diff :=
  ⟨d.diff_type.swap, d.tag, d.description, d.value_r, d.value_l, d.pfx⟩

theorem sizeE_lt_of_mem {e : DataElement} {ds : Dataset} (h : e ∈ ds) :
    sizeE e < sizeDS ds := by
  induction ds with
  | nil => cases h
  | cons a as ih =>
      rcases List.mem_cons.mp h with rfl | h'
      · simp only [sizeDS]; omega
      · have := ih h'; simp only [sizeDS]; omega

theorem sizeDS_lt_of_mem_items {d : Dataset} {items : List (List DataElement)}
    (h : d ∈ items) : sizeDS d < sizeItems items := by
  induction items with
  | nil => cases h
  | cons a as ih =>
      rcases List.mem_cons.mp h with rfl | h'
      · simp only [sizeItems]; omega
      · have := ih h'; simp only [sizeItems]; omega

theorem sizeDS_lt_of_mem_seq {l : Dataset} {e : DataElement}
    {items : List (List DataElement)} {d : Dataset}
    (he : e ∈ l) (hv : e.value = .sequence items) (hd : d ∈ items) :
    sizeDS d < sizeDS l := by
  have h2 := sizeE_lt_of_mem he
  have h3 := sizeDS_lt_of_mem_items hd
  obtain ⟨t', d', v⟩ := e
  simp only [DataElement.value] at hv
  subst hv
  simp only [sizeE, sizeV] at h2
  omega

theorem lookup_mem {t : Nat} {l : Dataset} {e : DataElement}
    (h : lookup t l = some e) : e ∈ l :=
  List.mem_of_find?_eq_some h

theorem lookup_tag {t : Nat} {l : Dataset} {e : DataElement}
    (h : lookup t l = some e) : e.tag = t := by
  have h' : List.find? (fun e => e.tag == t) l = some e := h
  have h2 := List.find?_some h'
  exact eq_of_beq h2

theorem sizeDS_lt_of_lookup_seq {t : Nat} {l : Dataset} {e : DataElement}
    {items : List (List DataElement)} {d : Dataset}
    (he : lookup t l = some e) (hv : e.value = .sequence items) (hd : d ∈ items) :
    sizeDS d < sizeDS l :=
  sizeDS_lt_of_mem_seq (lookup_mem he) hv hd

theorem lookup_eq_none {t : Nat} {l : Dataset} :
    lookup t l = none ↔ t ∉ keys l := by
  constructor
  · intro h ht
    rcases List.mem_map.mp ht with ⟨e, he, rfl⟩
    have := List.find?_eq_none.mp h e he
    simp at this
  · intro ht
    apply List.find?_eq_none.mpr
    intro e he
    simp only [Bool.not_eq_true, beq_eq_false_iff_ne, ne_eq]
    intro hEq
    exact ht (List.mem_map.mpr ⟨e, he, hEq⟩)

theorem lookup_isSome {t : Nat} {l : Dataset} (h : t ∈ keys l) :
    ∃ e, lookup t l = some e := by
  cases hl : lookup t l with
  | none => exact absurd h (lookup_eq_none.mp hl)
  | some e => exact ⟨e, rfl⟩

theorem diffSeq_congr {rec1 rec2 : Dataset → Dataset → Except Unit (List Diff)}
    {t : Nat} {descL : String} :
    ∀ {i : Nat} {ls rs : List Dataset},
      (∀ a ∈ ls, ∀ b ∈ rs, rec1 a b = rec2 a b) →
      diffSeq rec1 t descL i ls rs = diffSeq rec2 t descL i ls rs := by
  intro i ls
  induction ls generalizing i with
  | nil => intro rs h; simp only [diffSeq]
  | cons a ls ih =>
      intro rs h
      cases rs with
      | nil => simp only [diffSeq]
      | cons b rs =>
          simp only [diffSeq]
          rw [h a (by simp) b (by simp),
            ih (fun x hx y hy => h x (List.mem_cons_of_mem _ hx) y (List.mem_cons_of_mem _ hy))]

theorem tagDiff_congr {rec1 rec2 : Dataset → Dataset → Except Unit (List Diff)}
    {t : Nat} {l r : Dataset}
    (h : ∀ a b, sizeDS a < sizeDS l → sizeDS b < sizeDS r → rec1 a b = rec2 a b) :
    tagDiff rec1 t l r = tagDiff rec2 t l r := by
  cases hl : lookup t l with
  | none =>
      cases hr : lookup t r with
      | none => simp [tagDiff, hl, hr]
      | some e => simp [tagDiff, hl, hr]
  | some el =>
      cases hr : lookup t r with
      | none => simp [tagDiff, hl, hr]
      | some er =>
          cases hvl : el.value with
          | scalar v => simp [tagDiff, hl, hr, hvl]
          | sequence il =>
              cases hvr : er.value with
              | scalar w => cases w <;> simp [tagDiff, hl, hr, hvl, hvr]
              | sequence ir =>
                  simp only [tagDiff, hl, hr, hvl, hvr]
                  exact diffSeq_congr (fun a ha b hb =>
                    h a b (sizeDS_lt_of_lookup_seq hl hvl ha)
                          (sizeDS_lt_of_lookup_seq hr hvr hb))

theorem diffTags_congr {rec1 rec2 : Dataset → Dataset → Except Unit (List Diff)}
    {l r : Dataset}
    (h : ∀ a b, sizeDS a < sizeDS l → sizeDS b < sizeDS r → rec1 a b = rec2 a b) :
    ∀ ts, diffTags rec1 ts l r = diffTags rec2 ts l r := by
  intro ts
  induction ts with
  | nil => rfl
  | cons t ts ih => simp only [diffTags, tagDiff_congr h, ih]

theorem diffF_eq {n m : Nat} : ∀ {l r : Dataset},
    sizeDS l + sizeDS r < n → sizeDS l + sizeDS r < m →
    diffF n l r = diffF m l r := by
  induction n using Nat.strong_induction_on generalizing m with
  | _ n ihn =>
      intro l r h1 h2
      cases n with
      | zero => omega
      | succ n =>
          cases m with
          | zero => omega
          | succ m =>
              simp only [diffF]
              apply diffTags_congr
              intro a b ha hb
              exact ihn n (Nat.lt_succ_self n) (by omega) (by omega)

theorem diffF_eq_diff {n : Nat} {l r : Dataset} (h : sizeDS l + sizeDS r < n) :
    diffF n l r = diff l r :=
  diffF_eq h (by omega)

/-- The recursion equation of the source's `diff`: walk the sorted union
of both sides' tags and concatenate the per-tag emissions, recursing
through `diff` itself. -/
theorem diff_eq (l r : Dataset) :
    diff l r = diffTags diff (unionTags l r) l r := by
  show diffF (sizeDS l + sizeDS r + 1) l r = _
  simp only [diffF]
  apply diffTags_congr
  intro a b ha hb
  exact diffF_eq_diff (by omega)

theorem nodup_unionTags (l r : Dataset) : (unionTags l r).Nodup :=
  ((List.perm_insertionSort _ _).nodup_iff).mpr (List.nodup_dedup _)

theorem mem_unionTags {t : Nat} {l r : Dataset} :
    t ∈ unionTags l r ↔ t ∈ keys l ∨ t ∈ keys r := by
  unfold unionTags
  rw [(List.perm_insertionSort _ _).mem_iff, List.mem_dedup, List.mem_append]

theorem unionTags_comm (l r : Dataset) : unionTags l r = unionTags r l := by
  apply List.eq_of_perm_of_sorted (r := (· ≤ ·))
  · exact (List.perm_insertionSort _ _).trans
      (((List.perm_append_comm).dedup).trans (List.perm_insertionSort _ _).symm)
  · exact List.sorted_insertionSort _ _
  · exact List.sorted_insertionSort _ _

theorem pairsAll_congr {rec1 rec2 : Dataset → Dataset → Bool} :
    ∀ {ls rs : List Dataset}, (∀ a ∈ ls, ∀ b ∈ rs, rec1 a b = rec2 a b) →
      pairsAll rec1 ls rs = pairsAll rec2 ls rs := by
  intro ls
  induction ls with
  | nil => intro rs h; cases rs <;> rfl
  | cons a ls ih =>
      intro rs h
      cases rs with
      | nil => rfl
      | cons b rs =>
          simp only [pairsAll]
          rw [h a (by simp) b (by simp),
            ih (fun x hx y hy => h x (List.mem_cons_of_mem _ hx) y (List.mem_cons_of_mem _ hy))]

theorem agreeElems_congr {rec1 rec2 : Dataset → Dataset → Bool}
    {leaf : DataElement → DataElement → Bool} {r : Dataset} :
    ∀ {es : List DataElement},
      (∀ e ∈ es, ∀ er, lookup e.tag r = some er →
        ∀ il ir, e.value = .sequence il → er.value = .sequence ir →
          pairsAll rec1 il ir = pairsAll rec2 il ir) →
      agreeElems rec1 leaf es r = agreeElems rec2 leaf es r := by
  intro es
  induction es with
  | nil => intro h; rfl
  | cons e es ih =>
      intro h
      simp only [agreeElems]
      have htl :=
        ih (fun x hx er hlk il ir hvl hvr => h x (List.mem_cons_of_mem _ hx) er hlk il ir hvl hvr)
      rw [htl]
      congr 1
      split
      · rfl
      · rename_i er heq
        congr 1
        split
        · rename_i il ir hvl hvr
          exact h e (by simp) er heq il ir hvl hvr
        · rfl

theorem agreeF_eq {leaf : DataElement → DataElement → Bool} {n m : Nat} :
    ∀ {l r : Dataset},
      sizeDS l + sizeDS r < n → sizeDS l + sizeDS r < m →
      agreeF leaf n l r = agreeF leaf m l r := by
  induction n using Nat.strong_induction_on generalizing m with
  | _ n ihn =>
      intro l r h1 h2
      cases n with
      | zero => omega
      | succ n =>
          cases m with
          | zero => omega
          | succ m =>
              simp only [agreeF]
              apply agreeElems_congr
              intro e he er hlk il ir hvl hvr
              apply pairsAll_congr
              intro a ha b hb
              have ha' : sizeDS a < sizeDS l := sizeDS_lt_of_mem_seq he hvl ha
              have hb' : sizeDS b < sizeDS r := sizeDS_lt_of_lookup_seq hlk hvr hb
              exact ihn n (Nat.lt_succ_self n) (by omega) (by omega)

theorem agreeB_eq (leaf : DataElement → DataElement → Bool) (l r : Dataset) :
    agreeB leaf l r = agreeElems (agreeB leaf) leaf l r := by
  show agreeF leaf (sizeDS l + sizeDS r + 1) l r = _
  simp only [agreeF]
  apply agreeElems_congr
  intro e he er hlk il ir hvl hvr
  apply pairsAll_congr
  intro a ha b hb
  have ha' : sizeDS a < sizeDS l := sizeDS_lt_of_mem_seq he hvl ha
  have hb' : sizeDS b < sizeDS r := sizeDS_lt_of_lookup_seq hlk hvr hb
  exact agreeF_eq (by omega) (by omega)

theorem structElems_congr {rec1 rec2 : Dataset → Dataset → Bool} {r : Dataset} :
    ∀ {es : List DataElement},
      (∀ e ∈ es, ∀ er, lookup e.tag r = some er →
        ∀ il ir, e.value = .sequence il → er.value = .sequence ir →
          pairsAll rec1 il ir = pairsAll rec2 il ir) →
      structElems rec1 es r = structElems rec2 es r := by
  intro es
  induction es with
  | nil => intro h; rfl
  | cons e es ih =>
      intro h
      simp only [structElems]
      have htl :=
        ih (fun x hx er hlk il ir hvl hvr => h x (List.mem_cons_of_mem _ hx) er hlk il ir hvl hvr)
      rw [htl]
      congr 1
      split
      · rfl
      · rename_i er heq
        split
        · rfl
        · rename_i il ir hvl hvr
          rw [h e (by simp) er heq il ir hvl hvr]
        · rfl

theorem structF_eq {n m : Nat} : ∀ {l r : Dataset},
    sizeDS l + sizeDS r < n → sizeDS l + sizeDS r < m →
    structF n l r = structF m l r := by
  induction n using Nat.strong_induction_on generalizing m with
  | _ n ihn =>
      intro l r h1 h2
      cases n with
      | zero => omega
      | succ n =>
          cases m with
          | zero => omega
          | succ m =>
              simp only [structF]
              have : structElems (structF n) l r = structElems (structF m) l r := by
                apply structElems_congr
                intro e he er hlk il ir hvl hvr
                apply pairsAll_congr
                intro a ha b hb
                have ha' : sizeDS a < sizeDS l := sizeDS_lt_of_mem_seq he hvl ha
                have hb' : sizeDS b < sizeDS r := sizeDS_lt_of_lookup_seq hlk hvr hb
                exact ihn n (Nat.lt_succ_self n) (by omega) (by omega)
              rw [this]

theorem structIdentB_eq (l r : Dataset) :
    structIdentB l r = (keysSub r l && structElems structIdentB l r) := by
  show structF (sizeDS l + sizeDS r + 1) l r = _
  simp only [structF]
  have : structElems (structF (sizeDS l + sizeDS r)) l r = structElems structIdentB l r := by
    apply structElems_congr
    intro e he er hlk il ir hvl hvr
    apply pairsAll_congr
    intro a ha b hb
    have ha' : sizeDS a < sizeDS l := sizeDS_lt_of_mem_seq he hvl ha
    have hb' : sizeDS b < sizeDS r := sizeDS_lt_of_lookup_seq hlk hvr hb
    exact structF_eq (by omega) (by omega)
  rw [this]

theorem pairsAll_mem {rec : Dataset → Dataset → Bool} :
    ∀ {ls rs : List Dataset}, pairsAll rec ls rs = true →
      ∀ {a b : Dataset}, (a, b) ∈ ls.zip rs → rec a b = true := by
  intro ls
  induction ls with
  | nil => intro rs h a b hm; simp [List.zip] at hm
  | cons x ls ih =>
      intro rs h a b hm
      cases rs with
      | nil => simp at hm
      | cons y rs =>
          simp only [pairsAll, Bool.and_eq_true] at h
          rcases (by simpa using hm : (a = x ∧ b = y) ∨ (a, b) ∈ ls.zip rs) with ⟨rfl, rfl⟩ | hm'
          · exact h.1
          · exact ih h.2 hm'

theorem pairsAll_of_mem {rec : Dataset → Dataset → Bool} :
    ∀ {ls rs : List Dataset},
      (∀ a b, (a, b) ∈ ls.zip rs → rec a b = true) → pairsAll rec ls rs = true := by
  intro ls
  induction ls with
  | nil => intro rs h; cases rs <;> rfl
  | cons x ls ih =>
      intro rs h
      cases rs with
      | nil => rfl
      | cons y rs =>
          simp only [pairsAll, Bool.and_eq_true]
          exact ⟨h x y (by simp), ih (fun a b hm => h a b (by simp [hm]))⟩

theorem agreeElems_mem {rec : Dataset → Dataset → Bool}
    {leaf : DataElement → DataElement → Bool} {r : Dataset} :
    ∀ {es : List DataElement}, agreeElems rec leaf es r = true →
      ∀ {e}, e ∈ es → ∀ {er}, lookup e.tag r = some er →
        leaf e er = true ∧
        (∀ {il ir}, e.value = .sequence il → er.value = .sequence ir →
          pairsAll rec il ir = true) := by
  intro es
  induction es with
  | nil => intro _ e he; cases he
  | cons x es ih =>
      intro h e he er hlk
      simp only [agreeElems, Bool.and_eq_true] at h
      rcases List.mem_cons.mp he with rfl | he'
      · rw [hlk] at h
        have h1 := h.1
        simp only [Bool.and_eq_true] at h1
        refine ⟨h1.1, ?_⟩
        intro il ir hvl hvr
        have h2 := h1.2
        rw [hvl, hvr] at h2
        exact h2
      · exact ih h.2 he' hlk

/-- Unfolded meaning of `agreeB` at one shared element, with the
recursive agreement available pairwise over aligned sequence items. -/
theorem agreeB_mem {leaf : DataElement → DataElement → Bool} {l r : Dataset}
    (h : agreeB leaf l r = true) {e : DataElement} (he : e ∈ l)
    {er : DataElement} (hlk : lookup e.tag r = some er) :
    leaf e er = true ∧
    (∀ {il ir}, e.value = .sequence il → er.value = .sequence ir →
      ∀ {a b}, (a, b) ∈ il.zip ir → agreeB leaf a b = true) := by
  rw [agreeB_eq] at h
  obtain ⟨h1, h2⟩ := agreeElems_mem h he hlk
  refine ⟨h1, ?_⟩
  intro il ir hvl hvr a b hm
  exact pairsAll_mem (h2 hvl hvr) hm

theorem wfDS_nodup {ds : Dataset} (h : wfDS ds = true) : (keys ds).Nodup := by
  induction ds with
  | nil => simp [keys]
  | cons e es ih =>
      simp only [wfDS, Bool.and_eq_true] at h
      obtain ⟨⟨hn, _⟩, htl⟩ := h
      simp only [keys, List.map_cons, List.nodup_cons]
      refine ⟨by simpa [keys] using hn, ?_⟩
      simpa [keys] using ih htl

theorem wfDS_mem {ds : Dataset} (h : wfDS ds = true) {e : DataElement}
    (he : e ∈ ds) : wfE e = true := by
  induction ds with
  | nil => cases he
  | cons x es ih =>
      simp only [wfDS, Bool.and_eq_true] at h
      rcases List.mem_cons.mp he with rfl | he'
      · exact h.1.2
      · exact ih h.2 he'

theorem wfItems_mem {items : List (List DataElement)} (h : wfItems items = true)
    {d : List DataElement} (hd : d ∈ items) : wfDS d = true := by
  induction items with
  | nil => cases hd
  | cons x rest ih =>
      simp only [wfItems, Bool.and_eq_true] at h
      rcases List.mem_cons.mp hd with rfl | hd'
      · exact h.1
      · exact ih h.2 hd'

theorem wfDS_item {l : Dataset} {e : DataElement} {items : List (List DataElement)}
    (hwf : wfDS l = true) (he : e ∈ l) (hv : e.value = .sequence items) :
    ∀ d ∈ items, wfDS d = true := by
  intro d hd
  have h1 := wfDS_mem hwf he
  obtain ⟨t, desc, v⟩ := e
  simp only [DataElement.value] at hv
  subst hv
  simp only [wfE, wfV] at h1
  exact wfItems_mem h1 hd

theorem lookup_of_mem_nodup {l : Dataset} {e : DataElement}
    (hn : (keys l).Nodup) (he : e ∈ l) : lookup e.tag l = some e := by
  induction l with
  | nil => cases he
  | cons a as ih =>
      rcases List.mem_cons.mp he with rfl | h'
      · show List.find? (fun x => x.tag == e.tag) (e :: as) = some e
        simp [List.find?_cons_of_pos]
      · have hn2 : (DataElement.tag a :: keys as).Nodup := hn
        have hcons := List.nodup_cons.mp hn2
        have hka : a.tag ∉ keys as := hcons.1
        have hne : (a.tag == e.tag) = false := by
          have het : e.tag ∈ keys as := List.mem_map.mpr ⟨e, h', rfl⟩
          simp only [beq_eq_false_iff_ne, ne_eq]
          intro hEq
          exact hka (hEq ▸ het)
        have hn' : (keys as).Nodup := hcons.2
        show List.find? (fun x => x.tag == e.tag) (a :: as) = some e
        rw [List.find?_cons_of_neg _ (by simp [hne])]
        exact ih hn' h'

theorem diffTags_cons_ok {rec : Dataset → Dataset → Except Unit (List Diff)}
    {t : Nat} {ts : List Nat} {l r : Dataset} {ds : List Diff}
    (h : diffTags rec (t :: ts) l r = .ok ds) :
    ∃ c rest, tagDiff rec t l r = .ok c ∧ diffTags rec ts l r = .ok rest ∧
      ds = c ++ rest := by
  cases hc : tagDiff rec t l r with
  | error e => simp only [diffTags, hc] at h; exact Except.noConfusion h
  | ok c =>
      cases hr : diffTags rec ts l r with
      | error e => simp only [diffTags, hc, hr] at h; exact Except.noConfusion h
      | ok rest =>
          simp only [diffTags, hc, hr, Except.ok.injEq] at h
          exact ⟨c, rest, rfl, rfl, h.symm⟩

theorem diffTags_cons_eq {rec : Dataset → Dataset → Except Unit (List Diff)}
    {t : Nat} {ts : List Nat} {l r : Dataset} {c rest : List Diff}
    (hc : tagDiff rec t l r = .ok c) (hr : diffTags rec ts l r = .ok rest) :
    diffTags rec (t :: ts) l r = .ok (c ++ rest) := by
  simp only [diffTags, hc, hr]

theorem diffTags_append_ok {rec : Dataset → Dataset → Except Unit (List Diff)}
    {l r : Dataset} : ∀ {ts1 ts2 : List Nat} {ds : List Diff},
    diffTags rec (ts1 ++ ts2) l r = .ok ds →
    ∃ d1 d2, diffTags rec ts1 l r = .ok d1 ∧ diffTags rec ts2 l r = .ok d2 ∧
      ds = d1 ++ d2 := by
  intro ts1
  induction ts1 with
  | nil => intro ts2 ds h; exact ⟨[], ds, rfl, h, rfl⟩
  | cons t ts ih =>
      intro ts2 ds h
      obtain ⟨c, rest, hc, hrest, rfl⟩ := diffTags_cons_ok h
      obtain ⟨d1, d2, h1, h2, rfl⟩ := ih hrest
      exact ⟨c ++ d1, d2, diffTags_cons_eq hc h1, h2, by simp⟩

theorem restamp_pfx : ∀ {ds : List Diff} {d : Diff},
    d ∈ restamp ds → d.pfx.isSome = true := by
  intro ds
  induction ds with
  | nil => intro d h; cases h
  | cons x ds ih =>
      intro d h
      cases ds with
      | nil =>
          simp only [restamp, List.mem_singleton] at h
          subst h; rfl
      | cons y ds' =>
          rcases List.mem_cons.mp (by simpa [restamp] using h) with rfl | h'
          · rfl
          · exact ih h'

theorem seqTail_mem {α : Type} {mk : Nat → Diff} : ∀ {i : Nat} {ls : List α} {d : Diff},
    d ∈ seqTail mk i ls → ∃ j, d = mk j := by
  intro i ls
  induction ls generalizing i with
  | nil => intro d h; cases h
  | cons x ls ih =>
      intro d h
      rcases List.mem_cons.mp (by simpa [seqTail] using h) with rfl | h'
      · exact ⟨i, rfl⟩
      · exact ih h'

theorem diffSeq_mem_shape {rec : Dataset → Dataset → Except Unit (List Diff)}
    {t : Nat} {descL : String} : ∀ {i : Nat} {ls rs : List Dataset} {out : List Diff},
    diffSeq rec t descL i ls rs = .ok out →
    ∀ d ∈ out, (d.tag = t ∧ d.pfx = none) ∨ d.pfx.isSome = true := by
  intro i ls
  induction ls generalizing i with
  | nil =>
      intro rs out h d hd
      simp only [diffSeq, Except.ok.injEq] at h
      subst h
      obtain ⟨j, rfl⟩ := seqTail_mem hd
      exact Or.inl ⟨rfl, rfl⟩
  | cons a ls ih =>
      intro rs out h d hd
      cases rs with
      | nil =>
          simp only [diffSeq, Except.ok.injEq] at h
          subst h
          obtain ⟨j, rfl⟩ := seqTail_mem hd
          exact Or.inl ⟨rfl, rfl⟩
      | cons b rs =>
          simp only [diffSeq] at h
          cases hab : rec a b with
          | error e => rw [hab] at h; cases h
          | ok nested =>
              rw [hab] at h
              cases hrest : diffSeq rec t descL (i + 1) ls rs with
              | error e => rw [hrest] at h; cases h
              | ok rest =>
                  rw [hrest] at h
                  cases nested with
                  | nil =>
                      simp only [Except.ok.injEq] at h
                      subst h
                      exact ih hrest d hd
                  | cons n0 ns =>
                      simp only [Except.ok.injEq] at h
                      subst h
                      rcases List.mem_cons.mp hd with rfl | hd'
                      · exact Or.inr rfl
                      · rcases List.mem_append.mp hd' with hm | hm
                        · exact Or.inr (restamp_pfx hm)
                        · exact ih hrest d hm

theorem diffSeqChars_mem {t : Nat} {descL : String} {i : Nat}
    {ls : List Dataset} {cs : List Char} {out : List Diff}
    (h : diffSeqChars t descL i ls cs = .ok out) :
    ∀ d ∈ out, ∃ j : Nat,
      d = ⟨.MISSING_L, t, descL ++ " [" ++ toString j ++ "]",
            none, some placeholder, none⟩ ∨
      d = ⟨.MISSING_R, t, descL ++ " [" ++ toString j ++ "]",
            some placeholder, none, none⟩ := by
  intro d hd
  cases ls with
  | nil =>
      simp only [diffSeqChars, Except.ok.injEq] at h
      subst h
      obtain ⟨j, rfl⟩ := seqTail_mem hd
      exact ⟨j, Or.inl rfl⟩
  | cons a ls' =>
      cases cs with
      | nil =>
          simp only [diffSeqChars, Except.ok.injEq] at h
          subst h
          obtain ⟨j, rfl⟩ := seqTail_mem hd
          exact ⟨j, Or.inr rfl⟩
      | cons c cs' =>
          simp only [diffSeqChars] at h
          exact Except.noConfusion h

theorem tagDiff_mem_shape {rec : Dataset → Dataset → Except Unit (List Diff)}
    {t : Nat} {l r : Dataset} {c : List Diff} (h : tagDiff rec t l r = .ok c) :
    ∀ d ∈ c, (d.tag = t ∧ d.pfx = none) ∨ d.pfx.isSome = true := by
  intro d hd
  cases hl : lookup t l with
  | none =>
      cases hr : lookup t r with
      | none =>
          simp only [tagDiff, hl, hr, Except.ok.injEq] at h
          subst h; cases hd
      | some e =>
          cases hv : e.value with
          | scalar v =>
              simp only [tagDiff, hl, hr, hv, Except.ok.injEq] at h
              subst h
              rcases List.mem_singleton.mp hd with rfl
              exact Or.inl ⟨rfl, rfl⟩
          | sequence items =>
              simp only [tagDiff, hl, hr, hv, Except.ok.injEq] at h
              subst h
              rcases List.mem_singleton.mp hd with rfl
              exact Or.inl ⟨rfl, rfl⟩
  | some el =>
      cases hr : lookup t r with
      | none =>
          cases hv : el.value with
          | scalar v =>
              simp only [tagDiff, hl, hr, hv, Except.ok.injEq] at h
              subst h
              rcases List.mem_singleton.mp hd with rfl
              exact Or.inl ⟨rfl, rfl⟩
          | sequence items =>
              simp only [tagDiff, hl, hr, hv, Except.ok.injEq] at h
              subst h
              rcases List.mem_singleton.mp hd with rfl
              exact Or.inl ⟨rfl, rfl⟩
      | some er =>
          cases hvl : el.value with
          | scalar v =>
              simp only [tagDiff, hl, hr, hvl] at h
              by_cases hveq : valueEq v er.value = true
              · rw [if_pos hveq] at h
                simp only [Except.ok.injEq] at h
                subst h; cases hd
              · rw [if_neg hveq] at h
                simp only [Except.ok.injEq] at h
                subst h
                rcases List.mem_singleton.mp hd with rfl
                exact Or.inl ⟨rfl, rfl⟩
          | sequence il =>
              cases hvr : er.value with
              | scalar w =>
                  cases w with
                  | none =>
                      simp only [tagDiff, hl, hr, hvl, hvr] at h
                      exact Except.noConfusion h
                  | some s =>
                      simp only [tagDiff, hl, hr, hvl, hvr] at h
                      rcases diffSeqChars_mem h d hd with ⟨j, rfl | rfl⟩
                      · exact Or.inl ⟨rfl, rfl⟩
                      · exact Or.inl ⟨rfl, rfl⟩
              | sequence ir =>
                  simp only [tagDiff, hl, hr, hvl, hvr] at h
                  exact diffSeq_mem_shape h d hd

theorem diffTags_mem_shape {rec : Dataset → Dataset → Except Unit (List Diff)}
    {l r : Dataset} : ∀ {ts : List Nat} {ds : List Diff},
    diffTags rec ts l r = .ok ds →
    ∀ d ∈ ds, (d.tag ∈ ts ∧ d.pfx = none) ∨ d.pfx.isSome = true := by
  intro ts
  induction ts with
  | nil =>
      intro ds h d hd
      simp only [diffTags, Except.ok.injEq] at h
      subst h; cases hd
  | cons t ts ih =>
      intro ds h d hd
      obtain ⟨c, rest, hc, hrest, rfl⟩ := diffTags_cons_ok h
      rcases List.mem_append.mp hd with hm | hm
      · rcases tagDiff_mem_shape hc d hm with ⟨h1, h2⟩ | h1
        · exact Or.inl ⟨by simp [h1], h2⟩
        · exact Or.inr h1
      · rcases ih hrest d hm with ⟨h1, h2⟩ | h1
        · exact Or.inl ⟨by simp [h1], h2⟩
        · exact Or.inr h1

theorem diffSeq_refl {t : Nat} {descL : String} : ∀ {ls : List Dataset} {i : Nat},
    (∀ a ∈ ls, diff a a = .ok []) →
    diffSeq diff t descL i ls ls = .ok [] := by
  intro ls
  induction ls with
  | nil => intro i h; rfl
  | cons a ls ih =>
      intro i h
      simp only [diffSeq]
      rw [h a (by simp), ih (fun x hx => h x (List.mem_cons_of_mem _ hx))]

theorem diff_refl_aux : ∀ (n : Nat) (l : Dataset), sizeDS l < n → diff l l = .ok [] := by
  intro n
  induction n using Nat.strong_induction_on with
  | _ n ihn =>
      intro l hl
      rw [diff_eq]
      have IH : ∀ a, sizeDS a < sizeDS l → diff a a = .ok [] :=
        fun a ha => ihn (sizeDS a + 1) (by omega) a (by omega)
      have key : ∀ ts, diffTags diff ts l l = .ok [] := by
        intro ts
        induction ts with
        | nil => rfl
        | cons t ts iht =>
            have hc : tagDiff diff t l l = .ok [] := by
              cases hlk : lookup t l with
              | none => simp [tagDiff, hlk]
              | some e =>
                  cases hv : e.value with
                  | scalar v => simp [tagDiff, hlk, hv, valueEq]
                  | sequence items =>
                      simp only [tagDiff, hlk, hv]
                      exact diffSeq_refl
                        (fun a ha => IH a (sizeDS_lt_of_lookup_seq hlk hv ha))
            simp [diffTags, hc, iht]
      exact key _

/-- Reflexivity of the engine: a tree compared to itself yields no diffs. -/
theorem diff_refl (l : Dataset) : diff l l = .ok [] :=
  diff_refl_aux (sizeDS l + 1) l (by omega)

theorem seqTail_map {α : Type} (f : Diff → Diff) (mk : Nat → Diff) :
    ∀ (i : Nat) (ls : List α),
    (seqTail mk i ls).map f = seqTail (fun j => f (mk j)) i ls := by
  intro i ls
  induction ls generalizing i with
  | nil => rfl
  | cons x ls ih => simp [seqTail, ih]

theorem restamp_map_swap : ∀ ds : List Diff,
    restamp (ds.map Diff.swap) = (restamp ds).map Diff.swap := by
  intro ds
  induction ds with
  | nil => rfl
  | cons x ds ih =>
      cases ds with
      | nil => rfl
      | cons y ds' =>
          show { Diff.swap x with pfx := some "├" } :: restamp (List.map Diff.swap (y :: ds')) =
            Diff.swap { x with pfx := some "├" } :: List.map Diff.swap (restamp (y :: ds'))
          rw [ih]
          simp [Diff.swap]

theorem beq_comm_opt (v w : Option String) : (v == w) = (w == v) := by
  by_cases h : v = w
  · subst h; rfl
  · rw [beq_eq_false_iff_ne.mpr h, beq_eq_false_iff_ne.mpr (fun hh => h hh.symm)]

theorem diffSeq_swap {t : Nat} {d : String} :
    ∀ {ls rs : List Dataset} {i : Nat},
      (∀ a b, (a, b) ∈ ls.zip rs →
        ∃ ds, diff a b = .ok ds ∧ diff b a = .ok (ds.map Diff.swap)) →
      ∃ out, diffSeq diff t d i ls rs = .ok out ∧
        diffSeq diff t d i rs ls = .ok (out.map Diff.swap) := by
  intro ls
  induction ls with
  | nil =>
      intro rs i h
      cases rs with
      | nil => exact ⟨[], rfl, rfl⟩
      | cons b rs =>
          refine ⟨_, rfl, ?_⟩
          show diffSeq diff t d i (b :: rs) [] = _
          rw [seqTail_map]
          rfl
  | cons a ls ih =>
      intro rs i h
      cases rs with
      | nil =>
          refine ⟨_, rfl, ?_⟩
          show diffSeq diff t d i [] (a :: ls) = _
          rw [seqTail_map]
          rfl
      | cons b rs =>
          obtain ⟨ds0, hab, hba⟩ := h a b (by simp)
          obtain ⟨out', h1, h2⟩ :=
            @ih rs (i + 1) (fun x y hm => h x y (by simp [hm]))
          cases ds0 with
          | nil =>
              refine ⟨out', ?_, ?_⟩
              · simp only [diffSeq, hab, h1]
              · simp only [List.map_nil] at hba
                simp only [diffSeq, hba, h2]
          | cons n0 ns =>
              refine ⟨⟨.DIFFERENT, t, "[" ++ toString i ++ "] " ++ d,
                  some placeholder, some placeholder, some "┌"⟩
                    :: (restamp (n0 :: ns) ++ out'), ?_, ?_⟩
              · simp only [diffSeq, hab, h1]
              · simp only [List.map_cons] at hba
                simp only [diffSeq, hba, h2, List.map_cons, List.map_append,
                  Except.ok.injEq]
                rw [← List.map_cons, restamp_map_swap]
                simp [Diff.swap, DiffType.swap]

theorem tagDiff_swap {t : Nat} {l r : Dataset}
    (hk : kindsB l r = true) (hd : descsB l r = true)
    (IH : ∀ a b, sizeDS a < sizeDS l → sizeDS b < sizeDS r →
      kindsB a b = true → descsB a b = true →
      ∃ ds, diff a b = .ok ds ∧ diff b a = .ok (ds.map Diff.swap)) :
    ∃ c, tagDiff diff t l r = .ok c ∧ tagDiff diff t r l = .ok (c.map Diff.swap) := by
  cases hl : lookup t l with
  | none =>
      cases hr : lookup t r with
      | none =>
          refine ⟨[], ?_, ?_⟩
          · simp [tagDiff, hl, hr]
          · simp [tagDiff, hl, hr]
      | some e =>
          cases hv : e.value with
          | scalar v =>
              refine ⟨[⟨.MISSING_L, t, e.description, none,
                (Value.scalar v).toDiffVal, none⟩], ?_, ?_⟩
              · simp [tagDiff, hl, hr, hv]
              · simp [tagDiff, hl, hr, hv, Diff.swap, DiffType.swap]
          | sequence items =>
              refine ⟨[⟨.MISSING_L, t, "[" ++ toString items.length ++ "] " ++ e.description,
                none, some placeholder, none⟩], ?_, ?_⟩
              · simp [tagDiff, hl, hr, hv]
              · simp [tagDiff, hl, hr, hv, Diff.swap, DiffType.swap]
  | some el =>
      cases hr : lookup t r with
      | none =>
          cases hv : el.value with
          | scalar v =>
              refine ⟨[⟨.MISSING_R, t, el.description,
                (Value.scalar v).toDiffVal, none, none⟩], ?_, ?_⟩
              · simp [tagDiff, hl, hr, hv]
              · simp [tagDiff, hl, hr, hv, Diff.swap, DiffType.swap]
          | sequence items =>
              refine ⟨[⟨.MISSING_R, t, "[" ++ toString items.length ++ "] " ++ el.description,
                some placeholder, none, none⟩], ?_, ?_⟩
              · simp [tagDiff, hl, hr, hv]
              · simp [tagDiff, hl, hr, hv, Diff.swap, DiffType.swap]
      | some er =>
          have hel : el ∈ l := lookup_mem hl
          have htag : el.tag = t := lookup_tag hl
          have hlr' : lookup el.tag r = some er := by rw [htag]; exact hr
          obtain ⟨hkind, hkrec⟩ := agreeB_mem hk hel hlr'
          obtain ⟨hdesc, hdrec⟩ := agreeB_mem hd hel hlr'
          have hdeq : er.description = el.description :=
            (eq_of_beq hdesc).symm
          cases hvl : el.value with
          | scalar v =>
              cases hvr : er.value with
              | scalar w =>
                  by_cases hvw : (v == w) = true
                  · refine ⟨[], ?_, ?_⟩
                    · simp [tagDiff, hl, hr, hvl, hvr, valueEq, hvw]
                    · have : (w == v) = true := by rw [← beq_comm_opt]; exact hvw
                      simp [tagDiff, hl, hr, hvl, hvr, valueEq, this]
                  · have hwv : ¬ (w == v) = true := by rw [← beq_comm_opt]; exact hvw
                    refine ⟨[⟨.DIFFERENT, t, el.description, (Value.scalar v).toDiffVal,
                      (Value.scalar w).toDiffVal, none⟩], ?_, ?_⟩
                    · simp [tagDiff, hl, hr, hvl, hvr, valueEq, hvw]
                    · simp [tagDiff, hl, hr, hvl, hvr, valueEq, hwv, hdeq,
                        Diff.swap, DiffType.swap]
              | sequence ir =>
                  simp [kindLeaf, hvl, hvr] at hkind
          | sequence il =>
              cases hvr : er.value with
              | scalar w =>
                  simp [kindLeaf, hvl, hvr] at hkind
              | sequence ir =>
                  have hpw : ∀ a b, (a, b) ∈ il.zip ir →
                      ∃ ds, diff a b = .ok ds ∧ diff b a = .ok (ds.map Diff.swap) := by
                    intro a b hm
                    have hmem := List.of_mem_zip hm
                    have ha : sizeDS a < sizeDS l :=
                      sizeDS_lt_of_mem_seq hel hvl hmem.1
                    have hb : sizeDS b < sizeDS r :=
                      sizeDS_lt_of_lookup_seq hlr' hvr hmem.2
                    exact IH a b ha hb (hkrec hvl hvr hm) (hdrec hvl hvr hm)
                  obtain ⟨out, h1, h2⟩ := diffSeq_swap (t := t) (d := el.description) hpw
                  refine ⟨out, ?_, ?_⟩
                  · simp only [tagDiff, hl, hr, hvl, hvr]
                    exact h1
                  · simp only [tagDiff, hl, hr, hvl, hvr, hdeq]
                    exact h2

theorem diff_swap_aux : ∀ (n : Nat) (l r : Dataset), sizeDS l + sizeDS r < n →
    kindsB l r = true → descsB l r = true →
    ∃ ds, diff l r = .ok ds ∧ diff r l = .ok (ds.map Diff.swap) := by
  intro n
  induction n using Nat.strong_induction_on with
  | _ n ihn =>
      intro l r hn hk hd
      have IH : ∀ a b, sizeDS a < sizeDS l → sizeDS b < sizeDS r →
          kindsB a b = true → descsB a b = true →
          ∃ ds, diff a b = .ok ds ∧ diff b a = .ok (ds.map Diff.swap) :=
        fun a b ha hb hka hda =>
          ihn (sizeDS a + sizeDS b + 1) (by omega) a b (by omega) hka hda
      rw [diff_eq l r, diff_eq r l, unionTags_comm r l]
      have key : ∀ ts, ∃ ds, diffTags diff ts l r = .ok ds ∧
          diffTags diff ts r l = .ok (ds.map Diff.swap) := by
        intro ts
        induction ts with
        | nil => exact ⟨[], rfl, rfl⟩
        | cons t ts iht =>
            obtain ⟨c, hc1, hc2⟩ := tagDiff_swap (t := t) hk hd IH
            obtain ⟨ds, h1, h2⟩ := iht
            refine ⟨c ++ ds, diffTags_cons_eq hc1 h1, ?_⟩
            rw [List.map_append]
            exact diffTags_cons_eq hc2 h2
      exact key _

/-- Symmetry of the engine: when every shared tag agrees in value kind and
description (at every nesting level), swapping the two inputs succeeds and
produces the entrywise `Diff.swap` of the original output, in the same
order. -/
theorem diff_swap {l r : Dataset} (hk : kindsB l r = true) (hd : descsB l r = true) :
    ∃ ds, diff l r = .ok ds ∧ diff r l = .ok (ds.map Diff.swap) :=
  diff_swap_aux (sizeDS l + sizeDS r + 1) l r (by omega) hk hd

theorem diffTags_ok_nil_chunk {rec : Dataset → Dataset → Except Unit (List Diff)}
    {l r : Dataset} : ∀ {ts : List Nat}, diffTags rec ts l r = .ok [] →
    ∀ t ∈ ts, tagDiff rec t l r = .ok [] := by
  intro ts
  induction ts with
  | nil => intro _ t ht; cases ht
  | cons t0 ts ih =>
      intro h t ht
      obtain ⟨c, rest, hc, hrest, heq⟩ := diffTags_cons_ok h
      obtain ⟨hc0, hrest0⟩ := List.append_eq_nil.mp heq.symm
      subst hc0
      subst hrest0
      rcases List.mem_cons.mp ht with rfl | ht'
      · exact hc
      · exact ih hrest t ht'

theorem diffSeq_ok_nil {rec : Dataset → Dataset → Except Unit (List Diff)}
    {t : Nat} {descL : String} : ∀ {i : Nat} {ls rs : List Dataset},
    diffSeq rec t descL i ls rs = .ok [] →
    ls.length = rs.length ∧ (∀ a b, (a, b) ∈ ls.zip rs → rec a b = .ok []) := by
  intro i ls
  induction ls generalizing i with
  | nil =>
      intro rs h
      cases rs with
      | nil => exact ⟨rfl, by simp⟩
      | cons b rs => simp [diffSeq, seqTail] at h
  | cons a ls ih =>
      intro rs h
      cases rs with
      | nil => simp [diffSeq, seqTail] at h
      | cons b rs =>
          simp only [diffSeq] at h
          cases hab : rec a b with
          | error e => rw [hab] at h; exact Except.noConfusion h
          | ok nested =>
              rw [hab] at h
              cases hrest : diffSeq rec t descL (i + 1) ls rs with
              | error e => rw [hrest] at h; exact Except.noConfusion h
              | ok rest =>
                  rw [hrest] at h
                  cases nested with
                  | nil =>
                      simp only [Except.ok.injEq] at h
                      subst h
                      obtain ⟨hlen, hall⟩ := ih hrest
                      refine ⟨by simp [hlen], ?_⟩
                      intro x y hm
                      rcases (by simpa using hm :
                          (x = a ∧ y = b) ∨ (x, y) ∈ ls.zip rs) with ⟨rfl, rfl⟩ | hm'
                      · exact hab
                      · exact hall x y hm'
                  | cons n0 ns => simp at h

theorem diff_ok_nil_struct_aux : ∀ (n : Nat) (l r : Dataset),
    sizeDS l + sizeDS r < n → wfDS l = true → kindsB l r = true →
    diff l r = .ok [] → structIdentB l r = true := by
  intro n
  induction n using Nat.strong_induction_on with
  | _ n ihn =>
      intro l r hn hwf hk h
      rw [diff_eq] at h
      have hchunks := diffTags_ok_nil_chunk h
      have hsub : ∀ t ∈ keys r, t ∈ keys l := by
        intro t ht
        by_contra hident
        have htu : t ∈ unionTags l r := mem_unionTags.mpr (Or.inr ht)
        have hc := hchunks t htu
        have hln : lookup t l = none := lookup_eq_none.mpr hident
        obtain ⟨er, hlr⟩ := lookup_isSome ht
        cases hv : er.value with
        | scalar v => simp [tagDiff, hln, hlr, hv] at hc
        | sequence items => simp [tagDiff, hln, hlr, hv] at hc
      have hks : keysSub r l = true := by
        simp only [keysSub, List.all_eq_true]
        intro t ht
        simpa using hsub t ht
      have helems : ∀ es : List DataElement, (∀ e ∈ es, e ∈ l) →
          structElems structIdentB es r = true := by
        intro es hsubs
        induction es with
        | nil => rfl
        | cons e es ihe =>
            simp only [structElems, Bool.and_eq_true]
            refine ⟨?_, ihe (fun x hx => hsubs x (List.mem_cons_of_mem _ hx))⟩
            have hel : e ∈ l := hsubs e (by simp)
            have het : e.tag ∈ keys l := List.mem_map.mpr ⟨e, hel, rfl⟩
            have hlk : lookup e.tag l = some e := lookup_of_mem_nodup (wfDS_nodup hwf) hel
            have htu : e.tag ∈ unionTags l r := mem_unionTags.mpr (Or.inl het)
            have hc := hchunks e.tag htu
            cases hlr : lookup e.tag r with
            | none =>
                cases hv : e.value <;> simp [tagDiff, hlk, hlr, hv] at hc
            | some er =>
                cases hvl : e.value with
                | scalar v =>
                    cases hvr : er.value with
                    | scalar w =>
                        by_cases hvw : (v == w) = true
                        · simp only [hlr, hvl, hvr]
                          exact hvw
                        · simp [tagDiff, hlk, hlr, hvl, hvr, valueEq, hvw] at hc
                    | sequence ir =>
                        simp [tagDiff, hlk, hlr, hvl, hvr, valueEq] at hc
                | sequence il =>
                    cases hvr : er.value with
                    | scalar w =>
                        have hkind := (agreeB_mem hk hel hlr).1
                        simp [kindLeaf, hvl, hvr] at hkind
                    | sequence ir =>
                        simp only [tagDiff, hlk, hlr, hvl, hvr] at hc
                        obtain ⟨hlen, hall⟩ := diffSeq_ok_nil hc
                        simp only [hlr, hvl, hvr, Bool.and_eq_true]
                        refine ⟨by simp [hlen], ?_⟩
                        apply pairsAll_of_mem
                        intro x y hm
                        have hmem := List.of_mem_zip hm
                        have hx : sizeDS x < sizeDS l :=
                          sizeDS_lt_of_mem_seq hel hvl hmem.1
                        have hy : sizeDS y < sizeDS r :=
                          sizeDS_lt_of_lookup_seq hlr hvr hmem.2
                        have hkxy : kindsB x y = true :=
                          (agreeB_mem hk hel hlr).2 hvl hvr hm
                        exact ihn (sizeDS x + sizeDS y + 1) (by omega) x y (by omega)
                          (wfDS_item hwf hel hvl x hmem.1) hkxy (hall x y hm)
      rw [structIdentB_eq, Bool.and_eq_true]
      exact ⟨hks, helems l (fun _ he => he)⟩

/-- Completeness of the empty diff: an empty result implies structural
identity of the two trees (the left tree duplicate-free and every shared
tag holding the same value kind on both sides — this excludes the mixed
sequence/scalar pairing in which the source's untyped loop can return
empty output for unequal trees). -/
theorem diff_ok_nil_struct {l r : Dataset} (hwf : wfDS l = true)
    (hk : kindsB l r = true) (h : diff l r = .ok []) : structIdentB l r = true :=
  diff_ok_nil_struct_aux (sizeDS l + sizeDS r + 1) l r (by omega) hwf hk h

theorem restamp_mem : ∀ {ds : List Diff} {d : Diff}, d ∈ restamp ds →
    ∃ d0 ∈ ds, d.diff_type = d0.diff_type ∧ d.tag = d0.tag ∧
      d.description = d0.description ∧ d.value_l = d0.value_l ∧
      d.value_r = d0.value_r := by
  intro ds
  induction ds with
  | nil => intro d h; cases h
  | cons x ds ih =>
      intro d h
      cases ds with
      | nil =>
          simp only [restamp, List.mem_singleton] at h
          subst h
          exact ⟨x, by simp, rfl, rfl, rfl, rfl, rfl⟩
      | cons y ds' =>
          rcases List.mem_cons.mp (by simpa [restamp] using h) with rfl | h'
          · exact ⟨x, by simp, rfl, rfl, rfl, rfl, rfl⟩
          · obtain ⟨d0, hd0, hrest⟩ := ih h'
            exact ⟨d0, List.mem_cons_of_mem _ hd0, hrest⟩

theorem restamp_mem_pfx : ∀ {ds : List Diff} {d : Diff}, d ∈ restamp ds →
    d.pfx = some "├" ∨ d.pfx = some "└" := by
  intro ds
  induction ds with
  | nil => intro d h; cases h
  | cons x ds ih =>
      intro d h
      cases ds with
      | nil =>
          simp only [restamp, List.mem_singleton] at h
          subst h
          exact Or.inr rfl
      | cons y ds' =>
          rcases List.mem_cons.mp (by simpa [restamp] using h) with rfl | h'
          · exact Or.inl rfl
          · exact ih h'

theorem neDS_mem {ds : Dataset} (h : neDS ds = true) {e : DataElement}
    (he : e ∈ ds) : neE e = true := by
  induction ds with
  | nil => cases he
  | cons x es ih =>
      simp only [neDS, Bool.and_eq_true] at h
      rcases List.mem_cons.mp he with rfl | he'
      · exact h.1
      · exact ih h.2 he'

theorem neItems_mem {items : List (List DataElement)} (h : neItems items = true)
    {d : List DataElement} (hd : d ∈ items) : neDS d = true := by
  induction items with
  | nil => cases hd
  | cons x rest ih =>
      simp only [neItems, Bool.and_eq_true] at h
      rcases List.mem_cons.mp hd with rfl | hd'
      · exact h.1
      · exact ih h.2 hd'

theorem neDS_item {l : Dataset} {e : DataElement} {items : List (List DataElement)}
    (hne : neDS l = true) (he : e ∈ l) (hv : e.value = .sequence items) :
    ∀ d ∈ items, neDS d = true := by
  intro d hd
  have h1 := neDS_mem hne he
  obtain ⟨t, desc, v⟩ := e
  simp only [DataElement.value] at hv
  subst hv
  simp only [neE, neV] at h1
  exact neItems_mem h1 hd

theorem neDS_scalar_some {l : Dataset} {e : DataElement} {v : Option String}
    (hne : neDS l = true) (he : e ∈ l) (hv : e.value = .scalar v) :
    ∃ s, v = some s := by
  have h1 := neDS_mem hne he
  obtain ⟨t, desc, w⟩ := e
  simp only [DataElement.value] at hv
  subst hv
  simp only [neE, neV] at h1
  exact Option.isSome_iff_exists.mp h1

theorem diffSeq_mem_missing {rec : Dataset → Dataset → Except Unit (List Diff)}
    {t : Nat} {descL : String} : ∀ {i : Nat} {ls rs : List Dataset} {out : List Diff},
    (∀ a ∈ ls, ∀ b ∈ rs, ∀ nested, rec a b = .ok nested → ∀ d ∈ nested,
      (d.diff_type = .MISSING_L → d.value_l = none) ∧
      (d.diff_type = .MISSING_R → d.value_r = none)) →
    diffSeq rec t descL i ls rs = .ok out → ∀ d ∈ out,
      (d.diff_type = .MISSING_L → d.value_l = none) ∧
      (d.diff_type = .MISSING_R → d.value_r = none) := by
  intro i ls
  induction ls generalizing i with
  | nil =>
      intro rs out hrec h d hd
      simp only [diffSeq, Except.ok.injEq] at h
      subst h
      obtain ⟨j, rfl⟩ := seqTail_mem hd
      exact ⟨fun _ => rfl, fun hx => absurd hx (by simp)⟩
  | cons a ls ih =>
      intro rs out hrec h d hd
      cases rs with
      | nil =>
          simp only [diffSeq, Except.ok.injEq] at h
          subst h
          obtain ⟨j, rfl⟩ := seqTail_mem hd
          exact ⟨fun hx => absurd hx (by simp), fun _ => rfl⟩
      | cons b rs =>
          simp only [diffSeq] at h
          cases hab : rec a b with
          | error e => rw [hab] at h; exact Except.noConfusion h
          | ok nested =>
              rw [hab] at h
              cases hrest : diffSeq rec t descL (i + 1) ls rs with
              | error e => rw [hrest] at h; exact Except.noConfusion h
              | ok rest =>
                  rw [hrest] at h
                  have hrec' : ∀ a' ∈ ls, ∀ b' ∈ rs, ∀ n', rec a' b' = .ok n' →
                      ∀ d' ∈ n',
                      (d'.diff_type = .MISSING_L → d'.value_l = none) ∧
                      (d'.diff_type = .MISSING_R → d'.value_r = none) :=
                    fun a' ha' b' hb' => hrec a' (List.mem_cons_of_mem _ ha')
                      b' (List.mem_cons_of_mem _ hb')
                  have hihrest := ih hrec' hrest
                  cases nested with
                  | nil =>
                      simp only [Except.ok.injEq] at h
                      subst h
                      exact hihrest d hd
                  | cons n0 ns =>
                      simp only [Except.ok.injEq] at h
                      subst h
                      rcases List.mem_cons.mp hd with rfl | hd'
                      · exact ⟨fun hx => absurd hx (by simp), fun hx => absurd hx (by simp)⟩
                      · rcases List.mem_append.mp hd' with hm | hm
                        · obtain ⟨d0, hd0, hdt, _, _, hvl, hvr⟩ := restamp_mem hm
                          have h0 := hrec a (by simp) b (by simp) (n0 :: ns) hab d0 hd0
                          rw [hdt, hvl, hvr]
                          exact h0
                        · exact hihrest d hm

theorem tagDiff_mem_missing {rec : Dataset → Dataset → Except Unit (List Diff)}
    {t : Nat} {l r : Dataset} {c : List Diff}
    (hrec : ∀ a b, sizeDS a < sizeDS l → sizeDS b < sizeDS r →
      ∀ nested, rec a b = .ok nested → ∀ d ∈ nested,
      (d.diff_type = .MISSING_L → d.value_l = none) ∧
      (d.diff_type = .MISSING_R → d.value_r = none))
    (h : tagDiff rec t l r = .ok c) :
    ∀ d ∈ c,
      (d.diff_type = .MISSING_L → d.value_l = none) ∧
      (d.diff_type = .MISSING_R → d.value_r = none) := by
  intro d hd
  cases hl : lookup t l with
  | none =>
      cases hr : lookup t r with
      | none =>
          simp only [tagDiff, hl, hr, Except.ok.injEq] at h
          subst h; cases hd
      | some e =>
          cases hv : e.value with
          | scalar v =>
              simp only [tagDiff, hl, hr, hv, Except.ok.injEq] at h
              subst h
              rcases List.mem_singleton.mp hd with rfl
              exact ⟨fun _ => rfl, fun hx => absurd hx (by simp)⟩
          | sequence items =>
              simp only [tagDiff, hl, hr, hv, Except.ok.injEq] at h
              subst h
              rcases List.mem_singleton.mp hd with rfl
              exact ⟨fun _ => rfl, fun hx => absurd hx (by simp)⟩
  | some el =>
      cases hr : lookup t r with
      | none =>
          cases hv : el.value with
          | scalar v =>
              simp only [tagDiff, hl, hr, hv, Except.ok.injEq] at h
              subst h
              rcases List.mem_singleton.mp hd with rfl
              exact ⟨fun hx => absurd hx (by simp), fun _ => rfl⟩
          | sequence items =>
              simp only [tagDiff, hl, hr, hv, Except.ok.injEq] at h
              subst h
              rcases List.mem_singleton.mp hd with rfl
              exact ⟨fun hx => absurd hx (by simp), fun _ => rfl⟩
      | some er =>
          cases hvl : el.value with
          | scalar v =>
              simp only [tagDiff, hl, hr, hvl] at h
              by_cases hveq : valueEq v er.value = true
              · rw [if_pos hveq] at h
                simp only [Except.ok.injEq] at h
                subst h; cases hd
              · rw [if_neg hveq] at h
                simp only [Except.ok.injEq] at h
                subst h
                rcases List.mem_singleton.mp hd with rfl
                exact ⟨fun hx => absurd hx (by simp), fun hx => absurd hx (by simp)⟩
          | sequence il =>
              cases hvr : er.value with
              | scalar w =>
                  cases w with
                  | none =>
                      simp only [tagDiff, hl, hr, hvl, hvr] at h
                      exact Except.noConfusion h
                  | some s =>
                      simp only [tagDiff, hl, hr, hvl, hvr] at h
                      rcases diffSeqChars_mem h d hd with ⟨j, rfl | rfl⟩
                      · exact ⟨fun _ => rfl, fun hx => absurd hx (by simp)⟩
                      · exact ⟨fun hx => absurd hx (by simp), fun _ => rfl⟩
              | sequence ir =>
                  simp only [tagDiff, hl, hr, hvl, hvr] at h
                  refine diffSeq_mem_missing ?_ h d hd
                  intro a ha b hb nested hab d' hd'
                  have hsa : sizeDS a < sizeDS l :=
                    sizeDS_lt_of_lookup_seq hl hvl ha
                  have hsb : sizeDS b < sizeDS r :=
                    sizeDS_lt_of_lookup_seq hr hvr hb
                  exact hrec a b hsa hsb nested hab d' hd'

theorem diff_mem_missing_aux : ∀ (n : Nat) (l r : Dataset) (ds : List Diff),
    sizeDS l + sizeDS r < n → diff l r = .ok ds → ∀ d ∈ ds,
      (d.diff_type = .MISSING_L → d.value_l = none) ∧
      (d.diff_type = .MISSING_R → d.value_r = none) := by
  intro n
  induction n using Nat.strong_induction_on with
  | _ n ihn =>
      intro l r ds hn h d hd
      rw [diff_eq] at h
      have key : ∀ ts ds', diffTags diff ts l r = .ok ds' → ∀ d' ∈ ds',
          (d'.diff_type = .MISSING_L → d'.value_l = none) ∧
          (d'.diff_type = .MISSING_R → d'.value_r = none) := by
        intro ts
        induction ts with
        | nil =>
            intro ds' h' d' hd'
            simp only [diffTags, Except.ok.injEq] at h'
            subst h'; cases hd'
        | cons t0 ts iht =>
            intro ds' h' d' hd'
            obtain ⟨c, rest, hc, hrest, rfl⟩ := diffTags_cons_ok h'
            rcases List.mem_append.mp hd' with hm | hm
            · refine tagDiff_mem_missing ?_ hc d' hm
              intro a b ha hb nested hab d2 hd2
              exact ihn (sizeDS a + sizeDS b + 1) (by omega) a b nested (by omega)
                hab d2 hd2
            · exact iht rest hrest d' hm
      exact key _ ds h d hd

/-- The missing-side value slot of a missing record is always null. -/
theorem diff_mem_missing {l r : Dataset} {ds : List Diff}
    (h : diff l r = .ok ds) : ∀ d ∈ ds,
    (d.diff_type = .MISSING_L → d.value_l = none) ∧
    (d.diff_type = .MISSING_R → d.value_r = none) :=
  diff_mem_missing_aux (sizeDS l + sizeDS r + 1) l r ds (by omega) h

theorem diffSeq_mem_present {rec : Dataset → Dataset → Except Unit (List Diff)}
    {t : Nat} {descL : String} : ∀ {i : Nat} {ls rs : List Dataset} {out : List Diff},
    (∀ a ∈ ls, ∀ b ∈ rs, ∀ nested, rec a b = .ok nested → ∀ d ∈ nested,
      (d.diff_type = .MISSING_L → d.value_r ≠ none) ∧
      (d.diff_type = .MISSING_R → d.value_l ≠ none)) →
    diffSeq rec t descL i ls rs = .ok out → ∀ d ∈ out,
      (d.diff_type = .MISSING_L → d.value_r ≠ none) ∧
      (d.diff_type = .MISSING_R → d.value_l ≠ none) := by
  intro i ls
  induction ls generalizing i with
  | nil =>
      intro rs out hrec h d hd
      simp only [diffSeq, Except.ok.injEq] at h
      subst h
      obtain ⟨j, rfl⟩ := seqTail_mem hd
      exact ⟨fun _ => by simp, fun hx => absurd hx (by simp)⟩
  | cons a ls ih =>
      intro rs out hrec h d hd
      cases rs with
      | nil =>
          simp only [diffSeq, Except.ok.injEq] at h
          subst h
          obtain ⟨j, rfl⟩ := seqTail_mem hd
          exact ⟨fun hx => absurd hx (by simp), fun _ => by simp⟩
      | cons b rs =>
          simp only [diffSeq] at h
          cases hab : rec a b with
          | error e => rw [hab] at h; exact Except.noConfusion h
          | ok nested =>
              rw [hab] at h
              cases hrest : diffSeq rec t descL (i + 1) ls rs with
              | error e => rw [hrest] at h; exact Except.noConfusion h
              | ok rest =>
                  rw [hrest] at h
                  have hrec' : ∀ a' ∈ ls, ∀ b' ∈ rs, ∀ n', rec a' b' = .ok n' →
                      ∀ d' ∈ n',
                      (d'.diff_type = .MISSING_L → d'.value_r ≠ none) ∧
                      (d'.diff_type = .MISSING_R → d'.value_l ≠ none) :=
                    fun a' ha' b' hb' => hrec a' (List.mem_cons_of_mem _ ha')
                      b' (List.mem_cons_of_mem _ hb')
                  have hihrest := ih hrec' hrest
                  cases nested with
                  | nil =>
                      simp only [Except.ok.injEq] at h
                      subst h
                      exact hihrest d hd
                  | cons n0 ns =>
                      simp only [Except.ok.injEq] at h
                      subst h
                      rcases List.mem_cons.mp hd with rfl | hd'
                      · exact ⟨fun hx => absurd hx (by simp),
                          fun hx => absurd hx (by simp)⟩
                      · rcases List.mem_append.mp hd' with hm | hm
                        · obtain ⟨d0, hd0, hdt, _, _, hvl, hvr⟩ := restamp_mem hm
                          have h0 := hrec a (by simp) b (by simp) (n0 :: ns) hab d0 hd0
                          rw [hdt, hvl, hvr]
                          exact h0
                        · exact hihrest d hm

theorem tagDiff_mem_present {rec : Dataset → Dataset → Except Unit (List Diff)}
    {t : Nat} {l r : Dataset} {c : List Diff}
    (hnel : neDS l = true) (hner : neDS r = true)
    (hrec : ∀ a b, sizeDS a < sizeDS l → sizeDS b < sizeDS r →
      neDS a = true → neDS b = true →
      ∀ nested, rec a b = .ok nested → ∀ d ∈ nested,
      (d.diff_type = .MISSING_L → d.value_r ≠ none) ∧
      (d.diff_type = .MISSING_R → d.value_l ≠ none))
    (h : tagDiff rec t l r = .ok c) :
    ∀ d ∈ c,
      (d.diff_type = .MISSING_L → d.value_r ≠ none) ∧
      (d.diff_type = .MISSING_R → d.value_l ≠ none) := by
  intro d hd
  cases hl : lookup t l with
  | none =>
      cases hr : lookup t r with
      | none =>
          simp only [tagDiff, hl, hr, Except.ok.injEq] at h
          subst h; cases hd
      | some e =>
          cases hv : e.value with
          | scalar v =>
              obtain ⟨s, rfl⟩ := neDS_scalar_some hner (lookup_mem hr) hv
              simp only [tagDiff, hl, hr, hv, Except.ok.injEq] at h
              subst h
              rcases List.mem_singleton.mp hd with rfl
              exact ⟨fun _ => by simp [Value.toDiffVal], fun hx => absurd hx (by simp)⟩
          | sequence items =>
              simp only [tagDiff, hl, hr, hv, Except.ok.injEq] at h
              subst h
              rcases List.mem_singleton.mp hd with rfl
              exact ⟨fun _ => by simp, fun hx => absurd hx (by simp)⟩
  | some el =>
      cases hr : lookup t r with
      | none =>
          cases hv : el.value with
          | scalar v =>
              obtain ⟨s, rfl⟩ := neDS_scalar_some hnel (lookup_mem hl) hv
              simp only [tagDiff, hl, hr, hv, Except.ok.injEq] at h
              subst h
              rcases List.mem_singleton.mp hd with rfl
              exact ⟨fun hx => absurd hx (by simp), fun _ => by simp [Value.toDiffVal]⟩
          | sequence items =>
              simp only [tagDiff, hl, hr, hv, Except.ok.injEq] at h
              subst h
              rcases List.mem_singleton.mp hd with rfl
              exact ⟨fun hx => absurd hx (by simp), fun _ => by simp⟩
      | some er =>
          cases hvl : el.value with
          | scalar v =>
              simp only [tagDiff, hl, hr, hvl] at h
              by_cases hveq : valueEq v er.value = true
              · rw [if_pos hveq] at h
                simp only [Except.ok.injEq] at h
                subst h; cases hd
              · rw [if_neg hveq] at h
                simp only [Except.ok.injEq] at h
                subst h
                rcases List.mem_singleton.mp hd with rfl
                exact ⟨fun hx => absurd hx (by simp), fun hx => absurd hx (by simp)⟩
          | sequence il =>
              cases hvr : er.value with
              | scalar w =>
                  cases w with
                  | none =>
                      simp only [tagDiff, hl, hr, hvl, hvr] at h
                      exact Except.noConfusion h
                  | some s =>
                      simp only [tagDiff, hl, hr, hvl, hvr] at h
                      rcases diffSeqChars_mem h d hd with ⟨j, rfl | rfl⟩
                      · exact ⟨fun _ => by simp, fun hx => absurd hx (by simp)⟩
                      · exact ⟨fun hx => absurd hx (by simp), fun _ => by simp⟩
              | sequence ir =>
                  simp only [tagDiff, hl, hr, hvl, hvr] at h
                  refine diffSeq_mem_present ?_ h d hd
                  intro a ha b hb nested hab d' hd'
                  have hsa : sizeDS a < sizeDS l :=
                    sizeDS_lt_of_lookup_seq hl hvl ha
                  have hsb : sizeDS b < sizeDS r :=
                    sizeDS_lt_of_lookup_seq hr hvr hb
                  have hna : neDS a = true :=
                    neDS_item hnel (lookup_mem hl) hvl a ha
                  have hnb : neDS b = true :=
                    neDS_item hner (lookup_mem hr) hvr b hb
                  exact hrec a b hsa hsb hna hnb nested hab d' hd'

theorem diff_mem_present_aux : ∀ (n : Nat) (l r : Dataset) (ds : List Diff),
    sizeDS l + sizeDS r < n → neDS l = true → neDS r = true →
    diff l r = .ok ds → ∀ d ∈ ds,
      (d.diff_type = .MISSING_L → d.value_r ≠ none) ∧
      (d.diff_type = .MISSING_R → d.value_l ≠ none) := by
  intro n
  induction n using Nat.strong_induction_on with
  | _ n ihn =>
      intro l r ds hn hnel hner h d hd
      rw [diff_eq] at h
      have key : ∀ ts ds', diffTags diff ts l r = .ok ds' → ∀ d' ∈ ds',
          (d'.diff_type = .MISSING_L → d'.value_r ≠ none) ∧
          (d'.diff_type = .MISSING_R → d'.value_l ≠ none) := by
        intro ts
        induction ts with
        | nil =>
            intro ds' h' d' hd'
            simp only [diffTags, Except.ok.injEq] at h'
            subst h'; cases hd'
        | cons t0 ts iht =>
            intro ds' h' d' hd'
            obtain ⟨c, rest, hc, hrest, rfl⟩ := diffTags_cons_ok h'
            rcases List.mem_append.mp hd' with hm | hm
            · refine tagDiff_mem_present hnel hner ?_ hc d' hm
              intro a b ha hb hna hnb nested hab d2 hd2
              exact ihn (sizeDS a + sizeDS b + 1) (by omega) a b nested (by omega)
                hna hnb hab d2 hd2
            · exact iht rest hrest d' hm
      exact key _ ds h d hd

/-- When neither input holds an empty scalar anywhere, the present side's
value slot of a missing record is never null. -/
theorem diff_mem_present {l r : Dataset} {ds : List Diff}
    (hnel : neDS l = true) (hner : neDS r = true) (h : diff l r = .ok ds) :
    ∀ d ∈ ds,
    (d.diff_type = .MISSING_L → d.value_r ≠ none) ∧
    (d.diff_type = .MISSING_R → d.value_l ≠ none) :=
  diff_mem_present_aux (sizeDS l + sizeDS r + 1) l r ds (by omega) hnel hner h

theorem diffSeq_mem_pfx {rec : Dataset → Dataset → Except Unit (List Diff)}
    {t : Nat} {descL : String} : ∀ {i : Nat} {ls rs : List Dataset} {out : List Diff},
    diffSeq rec t descL i ls rs = .ok out → ∀ d ∈ out,
      d.pfx = none ∨ d.pfx = some "┌" ∨ d.pfx = some "├" ∨ d.pfx = some "└" := by
  intro i ls
  induction ls generalizing i with
  | nil =>
      intro rs out h d hd
      simp only [diffSeq, Except.ok.injEq] at h
      subst h
      obtain ⟨j, rfl⟩ := seqTail_mem hd
      exact Or.inl rfl
  | cons a ls ih =>
      intro rs out h d hd
      cases rs with
      | nil =>
          simp only [diffSeq, Except.ok.injEq] at h
          subst h
          obtain ⟨j, rfl⟩ := seqTail_mem hd
          exact Or.inl rfl
      | cons b rs =>
          simp only [diffSeq] at h
          cases hab : rec a b with
          | error e => rw [hab] at h; exact Except.noConfusion h
          | ok nested =>
              rw [hab] at h
              cases hrest : diffSeq rec t descL (i + 1) ls rs with
              | error e => rw [hrest] at h; exact Except.noConfusion h
              | ok rest =>
                  rw [hrest] at h
                  cases nested with
                  | nil =>
                      simp only [Except.ok.injEq] at h
                      subst h
                      exact ih hrest d hd
                  | cons n0 ns =>
                      simp only [Except.ok.injEq] at h
                      subst h
                      rcases List.mem_cons.mp hd with rfl | hd'
                      · exact Or.inr (Or.inl rfl)
                      · rcases List.mem_append.mp hd' with hm | hm
                        · rcases restamp_mem_pfx hm with h1 | h1
                          · exact Or.inr (Or.inr (Or.inl h1))
                          · exact Or.inr (Or.inr (Or.inr h1))
                        · exact ih hrest d hm

theorem tagDiff_mem_pfx {rec : Dataset → Dataset → Except Unit (List Diff)}
    {t : Nat} {l r : Dataset} {c : List Diff} (h : tagDiff rec t l r = .ok c) :
    ∀ d ∈ c,
      d.pfx = none ∨ d.pfx = some "┌" ∨ d.pfx = some "├" ∨ d.pfx = some "└" := by
  intro d hd
  rcases tagDiff_mem_shape h d hd with ⟨_, h1⟩ | h1
  · exact Or.inl h1
  · cases hl : lookup t l with
    | none =>
        cases hr : lookup t r with
        | none =>
            simp only [tagDiff, hl, hr, Except.ok.injEq] at h
            subst h; cases hd
        | some e =>
            cases hv : e.value with
            | scalar v =>
                simp only [tagDiff, hl, hr, hv, Except.ok.injEq] at h
                subst h
                rcases List.mem_singleton.mp hd with rfl
                exact Or.inl rfl
            | sequence items =>
                simp only [tagDiff, hl, hr, hv, Except.ok.injEq] at h
                subst h
                rcases List.mem_singleton.mp hd with rfl
                exact Or.inl rfl
    | some el =>
        cases hr : lookup t r with
        | none =>
            cases hv : el.value with
            | scalar v =>
                simp only [tagDiff, hl, hr, hv, Except.ok.injEq] at h
                subst h
                rcases List.mem_singleton.mp hd with rfl
                exact Or.inl rfl
            | sequence items =>
                simp only [tagDiff, hl, hr, hv, Except.ok.injEq] at h
                subst h
                rcases List.mem_singleton.mp hd with rfl
                exact Or.inl rfl
        | some er =>
            cases hvl : el.value with
            | scalar v =>
                simp only [tagDiff, hl, hr, hvl] at h
                by_cases hveq : valueEq v er.value = true
                · rw [if_pos hveq] at h
                  simp only [Except.ok.injEq] at h
                  subst h; cases hd
                · rw [if_neg hveq] at h
                  simp only [Except.ok.injEq] at h
                  subst h
                  rcases List.mem_singleton.mp hd with rfl
                  exact Or.inl rfl
            | sequence il =>
                cases hvr : er.value with
                | scalar w =>
                    cases w with
                    | none =>
                        simp only [tagDiff, hl, hr, hvl, hvr] at h
                        exact Except.noConfusion h
                    | some s =>
                        simp only [tagDiff, hl, hr, hvl, hvr] at h
                        rcases diffSeqChars_mem h d hd with ⟨j, rfl | rfl⟩
                        · exact Or.inl rfl
                        · exact Or.inl rfl
                | sequence ir =>
                    simp only [tagDiff, hl, hr, hvl, hvr] at h
                    exact diffSeq_mem_pfx h d hd

/-- Every record of a diff carries one of the four connectors: nothing,
`"┌"`, `"├"`, or `"└"`. -/
theorem diff_mem_pfx {l r : Dataset} {ds : List Diff} (h : diff l r = .ok ds) :
    ∀ d ∈ ds,
    d.pfx = none ∨ d.pfx = some "┌" ∨ d.pfx = some "├" ∨ d.pfx = some "└" := by
  rw [diff_eq] at h
  revert h
  generalize unionTags l r = ts
  induction ts generalizing ds with
  | nil =>
      intro h d hd
      simp only [diffTags, Except.ok.injEq] at h
      subst h; cases hd
  | cons t ts ih =>
      intro h d hd
      obtain ⟨c, rest, hc, hrest, rfl⟩ := diffTags_cons_ok h
      rcases List.mem_append.mp hd with hm | hm
      · exact tagDiff_mem_pfx hc d hm
      · exact ih hrest d hm

theorem strlen_append (s t : String) : (s ++ t).length = s.length + t.length := by
  obtain ⟨a⟩ := s
  obtain ⟨b⟩ := t
  show (a ++ b).length = a.length + b.length
  exact List.length_append a b

theorem format_pad_length {t : String} {l : Nat} (h : t.length ≤ l) :
    (format_pad t l).length = l := by
  unfold format_pad
  by_cases hlt : t.length < l
  · rw [if_pos hlt, strlen_append]
    show (List.replicate (l - t.length) ' ').length + t.length = l
    rw [List.length_replicate]
    omega
  · rw [if_neg hlt]
    omega

theorem format_str_len_length (s : String) (l : Nat) (h3 : 3 ≤ l) :
    (format_str_len s l).length = l := by
  unfold format_str_len
  by_cases hlt : s.length < l
  · rw [if_pos hlt]
    exact format_pad_length (by omega)
  · rw [if_neg hlt]
    apply format_pad_length
    rw [strlen_append]
    show (s.data.take (l - 3)).length + ("...".length) ≤ l
    rw [List.length_take]
    have : s.data.length = s.length := rfl
    have h3' : ("..." : String).length = 3 := rfl
    omega

theorem format_str_len_trunc (s : String) (l : Nat) (h3 : 3 ≤ l) (hgt : l < s.length) :
    ∃ p, format_str_len s l = p ++ "..." := by
  unfold format_str_len
  rw [if_neg (by omega)]
  unfold format_pad
  have hlen : (String.mk (s.data.take (l - 3)) ++ "...").length = l := by
    rw [strlen_append]
    show (s.data.take (l - 3)).length + ("...".length) = l
    rw [List.length_take]
    have : s.data.length = s.length := rfl
    have h3' : ("..." : String).length = 3 := rfl
    omega
  rw [if_neg (by omega)]
  exact ⟨_, rfl⟩

theorem unionTags_split {t : Nat} {l r : Dataset} (h : t ∈ unionTags l r) :
    ∃ ts1 ts2, unionTags l r = ts1 ++ t :: ts2 ∧ t ∉ ts1 ∧ t ∉ ts2 := by
  obtain ⟨ts1, ts2, heq⟩ := List.append_of_mem h
  have hnd := nodup_unionTags l r
  rw [heq] at hnd
  obtain ⟨h1, h2, hdisj⟩ := List.nodup_append.mp hnd
  refine ⟨ts1, ts2, heq, ?_, ?_⟩
  · intro hmem
    exact hdisj hmem (List.mem_cons_self t ts2)
  · exact (List.nodup_cons.mp h2).1

theorem diffSeq_elide {t : Nat} {descL : String} :
    ∀ {ls rs : List Dataset} {i : Nat},
      ls.length = rs.length → (∀ a b, (a, b) ∈ ls.zip rs → diff a b = .ok []) →
      diffSeq diff t descL i ls rs = .ok [] := by
  intro ls
  induction ls with
  | nil =>
      intro rs i hlen h
      cases rs with
      | nil => rfl
      | cons b rs => simp at hlen
  | cons a ls ih =>
      intro rs i hlen h
      cases rs with
      | nil => simp at hlen
      | cons b rs =>
          simp only [diffSeq]
          rw [h a b (by simp),
            ih (by simpa using hlen) (fun x y hm => h x y (by simp [hm]))]

theorem tagDiff_elide {t : Nat} {l r : Dataset} {el er : DataElement}
    {il ir : List (List DataElement)}
    (hl : lookup t l = some el) (hr : lookup t r = some er)
    (hvl : el.value = .sequence il) (hvr : er.value = .sequence ir)
    (hlen : il.length = ir.length)
    (hall : ∀ a b, (a, b) ∈ il.zip ir → diff a b = .ok []) :
    tagDiff diff t l r = .ok [] := by
  simp only [tagDiff, hl, hr, hvl, hvr]
  exact diffSeq_elide hlen hall

theorem diffSeq_step_elide {rec : Dataset → Dataset → Except Unit (List Diff)}
    {t : Nat} {d : String} {i : Nat} {a b : Dataset} {ls rs : List Dataset}
    (h : rec a b = .ok []) :
    diffSeq rec t d i (a :: ls) (b :: rs) = diffSeq rec t d (i + 1) ls rs := by
  cases hr : diffSeq rec t d (i + 1) ls rs with
  | error e => simp [diffSeq, h, hr]
  | ok rest => simp [diffSeq, h, hr]

theorem diffSeq_step_emit {rec : Dataset → Dataset → Except Unit (List Diff)}
    {t : Nat} {d : String} {i : Nat} {a b : Dataset} {ls rs : List Dataset}
    {n0 : Diff} {ns rest : List Diff}
    (hab : rec a b = .ok (n0 :: ns))
    (hrest : diffSeq rec t d (i + 1) ls rs = .ok rest) :
    diffSeq rec t d i (a :: ls) (b :: rs) =
      .ok (⟨.DIFFERENT, t, "[" ++ toString i ++ "] " ++ d,
            some placeholder, some placeholder, some "┌"⟩
        :: (restamp (n0 :: ns) ++ rest)) := by
  simp [diffSeq, hab, hrest]

theorem restamp_spec : ∀ (ds : List Diff) (d : Diff),
    restamp (ds ++ [d]) =
      ds.map (fun x => { x with pfx := some "├" }) ++ [{ d with pfx := some "└" }] := by
  intro ds d
  induction ds with
  | nil => rfl
  | cons x ds ih =>
      cases ds with
      | nil => rfl
      | cons y ds' =>
          show { x with pfx := some "├" } :: restamp ((y :: ds') ++ [d]) = _
          rw [ih]
          rfl

theorem seqTail_eq_map_range {α : Type} (mk : Nat → Diff) : ∀ (i : Nat) (ls : List α),
    seqTail mk i ls = (List.range ls.length).map (fun j => mk (i + j)) := by
  intro i ls
  induction ls generalizing i with
  | nil => rfl
  | cons x ls ih =>
      show mk i :: seqTail mk (i + 1) ls = _
      rw [ih]
      simp only [List.length_cons, List.range_succ_eq_map, List.map_cons,
        List.map_map, Nat.add_zero]
      congr 1
      apply List.map_congr_left
      intro j hj
      show mk (i + 1 + j) = mk (i + Nat.succ j)
      congr 1
      omega

theorem filter_chunks_nil {ts : List Nat} {l r : Dataset} {ds : List Diff}
    {t : Nat} (h : diffTags diff ts l r = .ok ds) (hnt : t ∉ ts) :
    ds.filter (fun d => d.tag == t && d.pfx.isNone) = [] := by
  rw [List.filter_eq_nil_iff]
  intro d hd
  rcases diffTags_mem_shape h d hd with ⟨hmem, hpfx⟩ | hpfx
  · intro hx
    simp only [Bool.and_eq_true, beq_iff_eq] at hx
    rw [hx.1] at hmem
    exact hnt hmem
  · intro hx
    simp only [Bool.and_eq_true, beq_iff_eq, Option.isNone_iff_eq_none] at hx
    rw [hx.2] at hpfx
    simp at hpfx

theorem diff_only_left_seq {l r : Dataset} {t : Nat} {e : DataElement}
    {items : List (List DataElement)} {ds : List Diff}
    (hl : lookup t l = some e) (hr : t ∉ keys r) (hv : e.value = .sequence items)
    (h : diff l r = .ok ds) :
    ds.filter (fun d => d.tag == t && d.pfx.isNone) =
      [⟨.MISSING_R, t, "[" ++ toString items.length ++ "] " ++ e.description,
        some placeholder, none, none⟩] := by
  have hrn : lookup t r = none := lookup_eq_none.mpr hr
  have htl : t ∈ keys l := List.mem_map.mpr ⟨e, lookup_mem hl, lookup_tag hl⟩
  have htu : t ∈ unionTags l r := mem_unionTags.mpr (Or.inl htl)
  obtain ⟨ts1, ts2, hsplit, hn1, hn2⟩ := unionTags_split htu
  rw [diff_eq, hsplit] at h
  obtain ⟨d1, d2, h1, h2, rfl⟩ := diffTags_append_ok h
  obtain ⟨c, rest, hc, hrest, rfl⟩ := diffTags_cons_ok h2
  have hcval : c = [⟨.MISSING_R, t,
      "[" ++ toString items.length ++ "] " ++ e.description,
      some placeholder, none, none⟩] := by
    simp only [tagDiff, hl, hrn, hv, Except.ok.injEq] at hc
    exact hc.symm
  subst hcval
  rw [List.filter_append, List.filter_append, filter_chunks_nil h1 hn1,
    filter_chunks_nil hrest hn2]
  simp

theorem diff_only_right_seq {l r : Dataset} {t : Nat} {e : DataElement}
    {items : List (List DataElement)} {ds : List Diff}
    (hl : t ∉ keys l) (hr : lookup t r = some e) (hv : e.value = .sequence items)
    (h : diff l r = .ok ds) :
    ds.filter (fun d => d.tag == t && d.pfx.isNone) =
      [⟨.MISSING_L, t, "[" ++ toString items.length ++ "] " ++ e.description,
        none, some placeholder, none⟩] := by
  have hln : lookup t l = none := lookup_eq_none.mpr hl
  have htr : t ∈ keys r := List.mem_map.mpr ⟨e, lookup_mem hr, lookup_tag hr⟩
  have htu : t ∈ unionTags l r := mem_unionTags.mpr (Or.inr htr)
  obtain ⟨ts1, ts2, hsplit, hn1, hn2⟩ := unionTags_split htu
  rw [diff_eq, hsplit] at h
  obtain ⟨d1, d2, h1, h2, rfl⟩ := diffTags_append_ok h
  obtain ⟨c, rest, hc, hrest, rfl⟩ := diffTags_cons_ok h2
  have hcval : c = [⟨.MISSING_L, t,
      "[" ++ toString items.length ++ "] " ++ e.description,
      none, some placeholder, none⟩] := by
    simp only [tagDiff, hln, hr, hv, Except.ok.injEq] at hc
    exact hc.symm
  subst hcval
  rw [List.filter_append, List.filter_append, filter_chunks_nil h1 hn1,
    filter_chunks_nil hrest hn2]
  simp

/-- C1, counterexample: a pair of trees in which tag 5 holds the scalar
"x" on the left and a Sequence on the right.  `diff` surfaces no error at
all: it silently emits a `DIFFERENT` record for that tag (the equality
comparison of a scalar with a `Sequence` is simply false), carrying the
raw sequence as the right display value — contradicting the claim that
such a pair is answered with a diagnosable error. -/
theorem C1_counterexample :
    diff [DataElement.mk 5 "D" (.scalar (some "x"))]
         [DataElement.mk 5 "D" (.sequence [[]])] =
      .ok [⟨.DIFFERENT, 5, "D", some (.str "x"), some (.seq [[]]), none⟩] := rfl

/-- C1, amended: when a shared tag holds a Scalar on the left and a
Sequence on the right, `diff` silently emits one `DIFFERENT` record for
that tag (no error), storing the scalar and the raw unexpanded sequence in
the value slots.  When it holds a Sequence on the left and a Scalar on the
right, no diagnosable error identifying the tag is raised either: the
untyped loop treats the scalar as a sequence of characters — an empty
(`None`) scalar fails with a generic `TypeError` at `len`, and a non-empty
string aligned index-wise with a non-empty sequence fails with a generic
`AttributeError` in the recursive call, while the remaining cases are
silent: an empty left sequence yields one `MISSING_L` record per character
of the string, and an empty string yields one `MISSING_R` record per left
item. -/
theorem C1_mixed_type (t : Nat) (dl dr : String) (v : Option String)
    (items il : List (List DataElement)) (x : Dataset)
    (c : Char) (cs : List Char) (s : String) :
    diff [DataElement.mk t dl (.scalar v)] [DataElement.mk t dr (.sequence items)] =
      .ok [⟨.DIFFERENT, t, dl, (Value.scalar v).toDiffVal, some (.seq items), none⟩] ∧
    diff [DataElement.mk t dl (.sequence items)] [DataElement.mk t dr (.scalar none)] =
      .error () ∧
    diff [DataElement.mk t dl (.sequence (x :: il))]
         [DataElement.mk t dr (.scalar (some (String.mk (c :: cs))))] = .error () ∧
    diff [DataElement.mk t dl (.sequence [])] [DataElement.mk t dr (.scalar (some s))] =
      .ok ((List.range s.length).map fun j =>
        ⟨.MISSING_L, t, dl ++ " [" ++ toString j ++ "]", none, some placeholder, none⟩) ∧
    diff [DataElement.mk t dl (.sequence il)] [DataElement.mk t dr (.scalar (some ""))] =
      .ok ((List.range il.length).map fun j =>
        ⟨.MISSING_R, t, dl ++ " [" ++ toString j ++ "]", some placeholder, none, none⟩) := by
  have hu : ∀ (vl vr : Value), unionTags [DataElement.mk t dl vl]
      [DataElement.mk t dr vr] = [t] := by
    intro vl vr
    simp [unionTags, keys, DataElement.tag, List.insertionSort, List.orderedInsert]
  have hlkl : ∀ vl : Value, lookup t [DataElement.mk t dl vl] =
      some (DataElement.mk t dl vl) := by
    intro vl
    simp [lookup, DataElement.tag]
  have hlkr : ∀ vr : Value, lookup t [DataElement.mk t dr vr] =
      some (DataElement.mk t dr vr) := by
    intro vr
    simp [lookup, DataElement.tag]
  refine ⟨?_, ?_, ?_, ?_, ?_⟩
  · rw [diff_eq, hu]
    simp [diffTags, tagDiff, hlkl, hlkr, DataElement.value,
      DataElement.description, valueEq, Value.toDiffVal]
  · rw [diff_eq, hu]
    simp [diffTags, tagDiff, hlkl, hlkr, DataElement.value]
  · rw [diff_eq, hu]
    simp [diffTags, tagDiff, hlkl, hlkr, DataElement.value,
      DataElement.description, diffSeqChars]
  · obtain ⟨sd⟩ := s
    rw [diff_eq, hu]
    have hchars : diffSeqChars t dl 0 [] sd =
        .ok ((List.range (String.mk sd).length).map fun j =>
          ⟨.MISSING_L, t, dl ++ " [" ++ toString j ++ "]",
            none, some placeholder, none⟩) := by
      have hlen : (String.mk sd).length = sd.length := rfl
      rw [hlen]
      cases sd with
      | nil => rfl
      | cons c0 cs0 =>
          show Except.ok (seqTail (fun j =>
            (⟨.MISSING_L, t, dl ++ " [" ++ toString j ++ "]",
              none, some placeholder, none⟩ : Diff)) 0 (c0 :: cs0)) = _
          rw [seqTail_eq_map_range]
          congr 1
          apply List.map_congr_left
          intro j _
          simp
    simp [diffTags, tagDiff, hlkl, hlkr, DataElement.value,
      DataElement.description, hchars]
  · rw [diff_eq, hu]
    have hchars : diffSeqChars t dl 0 il ("" : String).data =
        .ok ((List.range il.length).map fun j =>
          ⟨.MISSING_R, t, dl ++ " [" ++ toString j ++ "]",
            some placeholder, none, none⟩) := by
      cases il with
      | nil => rfl
      | cons y il' =>
          show Except.ok (seqTail (fun j =>
            (⟨.MISSING_R, t, dl ++ " [" ++ toString j ++ "]",
              some placeholder, none, none⟩ : Diff)) 0 (y :: il')) = _
          rw [seqTail_eq_map_range]
          congr 1
          apply List.map_congr_left
          intro j _
          simp
    simp [diffTags, tagDiff, hlkl, hlkr, DataElement.value,
      DataElement.description, hchars]

/-- C2, counterexample: two well-formed single-element trees agreeing in
value kind at their shared tag 5 but carrying different descriptions.
Swapping the inputs does not map entry 0 to its value-swapped mirror: the
record's description follows the left element, so it changes from "dA" to
"dB". -/
theorem C2_counterexample :
    wfDS [DataElement.mk 5 "dA" (.scalar (some "x"))] = true ∧
    wfDS [DataElement.mk 5 "dB" (.scalar (some "y"))] = true ∧
    kindsB [DataElement.mk 5 "dA" (.scalar (some "x"))]
           [DataElement.mk 5 "dB" (.scalar (some "y"))] = true ∧
    diff [DataElement.mk 5 "dA" (.scalar (some "x"))]
         [DataElement.mk 5 "dB" (.scalar (some "y"))] =
      .ok [⟨.DIFFERENT, 5, "dA", some (.str "x"), some (.str "y"), none⟩] ∧
    diff [DataElement.mk 5 "dB" (.scalar (some "y"))]
         [DataElement.mk 5 "dA" (.scalar (some "x"))] ≠
      .ok ([(⟨.DIFFERENT, 5, "dA", some (.str "x"), some (.str "y"), none⟩ : Diff)].map
        Diff.swap) := by
  refine ⟨rfl, rfl, rfl, rfl, ?_⟩
  intro h
  rw [show diff [DataElement.mk 5 "dB" (.scalar (some "y"))]
      [DataElement.mk 5 "dA" (.scalar (some "x"))] =
      .ok [⟨.DIFFERENT, 5, "dB", some (.str "y"), some (.str "x"), none⟩] from rfl] at h
  simp [Diff.swap, DiffType.swap] at h

/-- C2, amended: for well-formed trees in which every shared tag (at every
nesting level) holds the same value kind and the same description on both
sides, `diff(A,B)` succeeds, `diff(B,A)` succeeds, and the latter is
obtained entry by entry, in the same order, by swapping `value_l` with
`value_r` and exchanging `MISSING_L` with `MISSING_R` while `DIFFERENT`,
tag, description and connector stay fixed (`Diff.swap`). -/
theorem C2_swap (A B : Dataset)
    (hwA : wfDS A = true) (hwB : wfDS B = true)
    (hk : kindsB A B = true) (hd : descsB A B = true) :
    ∃ ds, diff A B = .ok ds ∧ diff B A = .ok (ds.map Diff.swap) :=
  diff_swap hk hd

/-- C2, witness at a concrete pair of scalar trees with matching
descriptions. -/
theorem C2_swap_witness :
    ∃ ds, diff [DataElement.mk 5 "D" (.scalar (some "x"))]
               [DataElement.mk 5 "D" (.scalar (some "y"))] = .ok ds ∧
          diff [DataElement.mk 5 "D" (.scalar (some "y"))]
               [DataElement.mk 5 "D" (.scalar (some "x"))] =
            .ok (ds.map Diff.swap) :=
  C2_swap [DataElement.mk 5 "D" (.scalar (some "x"))]
          [DataElement.mk 5 "D" (.scalar (some "y"))] rfl rfl rfl rfl

/-- C3: for every well-formed tree, including arbitrarily nested
sequences, `diff(A,A)` returns the empty list; in particular two empty
trees yield the empty output. -/
theorem C3_reflexivity :
    (∀ A : Dataset, wfDS A = true → diff A A = .ok []) ∧
    diff ([] : Dataset) [] = .ok [] :=
  ⟨fun A _ => diff_refl A, rfl⟩

/-- C3, witness at a tree containing a nested sequence. -/
theorem C3_reflexivity_witness :
    diff [DataElement.mk 1 "S"
            (.sequence [[DataElement.mk 2 "T" (.scalar (some "x"))]])]
         [DataElement.mk 1 "S"
            (.sequence [[DataElement.mk 2 "T" (.scalar (some "x"))]])] = .ok [] :=
  C3_reflexivity.1 _ rfl

/-- C4: a tag present on exactly one side whose value is a Sequence of
length `n` produces exactly one record for that tag — `MISSING_R` when it
is only on the left, `MISSING_L` when only on the right — whose
description is `"[n] "` prepended to the element's description and whose
present-side display value is the placeholder `"-----"`; the sequence's
contents are never expanded.  Both the per-tag emission of the engine's
loop (`tagDiff`) and the full output are characterised: in the full
output, the records of that tag are the un-prefixed ones (a record
re-stamped under some other tag's sequence grouping carries a connector
and belongs to that group). -/
theorem C4_placeholder_on_absence (l r : Dataset) (t : Nat) (e : DataElement)
    (items : List (List DataElement)) (ds : List Diff) :
    (lookup t l = some e → t ∉ keys r → e.value = .sequence items →
      tagDiff diff t l r =
        .ok [⟨.MISSING_R, t, "[" ++ toString items.length ++ "] " ++ e.description,
          some placeholder, none, none⟩] ∧
      (diff l r = .ok ds →
        ds.filter (fun d => d.tag == t && d.pfx.isNone) =
          [⟨.MISSING_R, t, "[" ++ toString items.length ++ "] " ++ e.description,
            some placeholder, none, none⟩])) ∧
    (t ∉ keys l → lookup t r = some e → e.value = .sequence items →
      tagDiff diff t l r =
        .ok [⟨.MISSING_L, t, "[" ++ toString items.length ++ "] " ++ e.description,
          none, some placeholder, none⟩] ∧
      (diff l r = .ok ds →
        ds.filter (fun d => d.tag == t && d.pfx.isNone) =
          [⟨.MISSING_L, t, "[" ++ toString items.length ++ "] " ++ e.description,
            none, some placeholder, none⟩])) := by
  constructor
  · intro h1 h2 h3
    have hrn : lookup t r = none := lookup_eq_none.mpr h2
    constructor
    · simp only [tagDiff, h1, hrn, h3]
    · intro h4
      exact diff_only_left_seq h1 h2 h3 h4
  · intro h1 h2 h3
    have hln : lookup t l = none := lookup_eq_none.mpr h1
    constructor
    · simp only [tagDiff, hln, h2, h3]
    · intro h4
      exact diff_only_right_seq h1 h2 h3 h4

/-- C4, witness: a two-item sequence at tag 7 present only on the left
yields exactly one placeholder record. -/
theorem C4_witness :
    tagDiff diff 7 [DataElement.mk 7 "S" (.sequence [[], []])] [] =
      .ok [⟨.MISSING_R, 7, "[" ++ toString (2 : Nat) ++ "] " ++ "S",
        some placeholder, none, none⟩] ∧
    (diff [DataElement.mk 7 "S" (.sequence [[], []])] [] =
        .ok [⟨.MISSING_R, 7, "[2] S", some placeholder, none, none⟩] →
      ([⟨.MISSING_R, 7, "[2] S", some placeholder, none, none⟩] : List Diff).filter
          (fun d => d.tag == 7 && d.pfx.isNone) =
        [⟨.MISSING_R, 7, "[" ++ toString (2 : Nat) ++ "] " ++ "S",
          some placeholder, none, none⟩]) :=
  (C4_placeholder_on_absence [DataElement.mk 7 "S" (.sequence [[], []])] []
    7 (DataElement.mk 7 "S" (.sequence [[], []])) [[], []]
    [⟨.MISSING_R, 7, "[2] S", some placeholder, none, none⟩]).1
    rfl (by simp [keys]) rfl

/-- C5: for a tag whose value is a Sequence on both sides, each index
present in both sides obeys a per-index law: if the recursive diff of the
two item trees is empty, nothing is emitted for that index and the loop
moves on (whatever the remaining lengths); if it is non-empty, exactly one
header record is emitted — `DIFFERENT`, description `"[i] "` plus the left
description, both display values the placeholder, connector `"┌"` —
followed by the recursive records re-stamped so that all but the last
carry `"├"` and the last `"└"`.  Consequently a tag whose aligned items
all compare empty contributes nothing at all, and the concrete scenario
`A = tag(1,1) ↦ Sequence[tag(2,2) ↦ "x"]` against the same shape with
`"y"` yields exactly the `"┌"` header plus one `DIFFERENT` at tag(2,2)
with values `"x"`/`"y"` and connector `"└"`. -/
theorem C5_sequence_item_groups (l r : Dataset) (t : Nat) (el er : DataElement)
    (il ir : List (List DataElement)) :
    (∀ (rec : Dataset → Dataset → Except Unit (List Diff)) (t' : Nat)
        (d : String) (i : Nat) (a b : Dataset) (ls rs : List Dataset),
      rec a b = .ok [] →
      diffSeq rec t' d i (a :: ls) (b :: rs) = diffSeq rec t' d (i + 1) ls rs) ∧
    (∀ (rec : Dataset → Dataset → Except Unit (List Diff)) (t' : Nat)
        (d : String) (i : Nat) (a b : Dataset) (ls rs : List Dataset)
        (n0 : Diff) (ns rest : List Diff),
      rec a b = .ok (n0 :: ns) →
      diffSeq rec t' d (i + 1) ls rs = .ok rest →
      diffSeq rec t' d i (a :: ls) (b :: rs) =
        .ok (⟨.DIFFERENT, t', "[" ++ toString i ++ "] " ++ d,
              some placeholder, some placeholder, some "┌"⟩
          :: (restamp (n0 :: ns) ++ rest))) ∧
    (∀ (ds : List Diff) (d : Diff),
      restamp (ds ++ [d]) =
        ds.map (fun x => { x with pfx := some "├" }) ++
          [{ d with pfx := some "└" }]) ∧
    (lookup t l = some el → lookup t r = some er →
      el.value = .sequence il → er.value = .sequence ir →
      il.length = ir.length → (∀ a b, (a, b) ∈ il.zip ir → diff a b = .ok []) →
      tagDiff diff t l r = .ok []) ∧
    diff [DataElement.mk 65537 "SQ"
            (.sequence [[DataElement.mk 131074 "EL" (.scalar (some "x"))]])]
         [DataElement.mk 65537 "SQ"
            (.sequence [[DataElement.mk 131074 "EL" (.scalar (some "y"))]])] =
      .ok [⟨.DIFFERENT, 65537, "[0] SQ", some placeholder, some placeholder, some "┌"⟩,
           ⟨.DIFFERENT, 131074, "EL", some (.str "x"), some (.str "y"), some "└"⟩] :=
  ⟨fun _ _ _ _ _ _ _ _ h => diffSeq_step_elide h,
   fun _ _ _ _ _ _ _ _ _ _ _ hab hrest => diffSeq_step_emit hab hrest,
   restamp_spec,
   fun h1 h2 h3 h4 h5 h6 => tagDiff_elide h1 h2 h3 h4 h5 h6,
   rfl⟩

/-- C5, witness: the emission law at one changed single-element item —
one `"┌"` header followed by the single re-stamped child record. -/
theorem C5_witness :
    diffSeq diff 1 "S" 0 [[DataElement.mk 2 "T" (.scalar (some "x"))]]
        [[DataElement.mk 2 "T" (.scalar (some "y"))]] =
      .ok [⟨.DIFFERENT, 1, "[0] S", some placeholder, some placeholder, some "┌"⟩,
           ⟨.DIFFERENT, 2, "T", some (.str "x"), some (.str "y"), some "└"⟩] :=
  (C5_sequence_item_groups [] [] 0
      (DataElement.mk 0 "" (.scalar none)) (DataElement.mk 0 "" (.scalar none))
      [] []).2.1 diff 1 "S" 0
    [DataElement.mk 2 "T" (.scalar (some "x"))]
    [DataElement.mk 2 "T" (.scalar (some "y"))] [] []
    ⟨.DIFFERENT, 2, "T", some (.str "x"), some (.str "y"), none⟩ [] []
    rfl rfl

/-- C6: when a tag holds Sequences of different lengths, every index
beyond the shorter side but within the longer yields exactly one missing
record whose description is suffixed `" [i]"` — `MISSING_L` entries when
the left is exhausted, `MISSING_R` when the right is — and in particular
the scenario `A = tag(1,1) ↦ Sequence[{},{}]`, `B = tag(1,1) ↦
Sequence[{}]` yields exactly one `MISSING_R` at index 1 with description
ending `" [1]"`. -/
theorem C6_length_mismatch :
    (∀ (rec : Dataset → Dataset → Except Unit (List Diff)) (t : Nat)
        (d : String) (i : Nat) (ls : List Dataset),
      diffSeq rec t d i ls [] =
        .ok ((List.range ls.length).map fun j =>
          ⟨.MISSING_R, t, d ++ " [" ++ toString (i + j) ++ "]",
            some placeholder, none, none⟩)) ∧
    (∀ (rec : Dataset → Dataset → Except Unit (List Diff)) (t : Nat)
        (d : String) (i : Nat) (rs : List Dataset),
      diffSeq rec t d i [] rs =
        .ok ((List.range rs.length).map fun j =>
          ⟨.MISSING_L, t, d ++ " [" ++ toString (i + j) ++ "]",
            none, some placeholder, none⟩)) ∧
    diff [DataElement.mk 65537 "SQ" (.sequence [[], []])]
         [DataElement.mk 65537 "SQ" (.sequence [[]])] =
      .ok [⟨.MISSING_R, 65537, "SQ [1]", some placeholder, none, none⟩] := by
  refine ⟨?_, ?_, rfl⟩
  · intro rec t d i ls
    cases ls with
    | nil => rfl
    | cons x ls =>
        show Except.ok (seqTail (fun j =>
          (⟨.MISSING_R, t, d ++ " [" ++ toString j ++ "]",
            some placeholder, none, none⟩ : Diff)) i (x :: ls)) = _
        rw [seqTail_eq_map_range]
  · intro rec t d i rs
    cases rs with
    | nil => rfl
    | cons x rs =>
        show Except.ok (seqTail (fun j =>
          (⟨.MISSING_L, t, d ++ " [" ++ toString j ++ "]",
            none, some placeholder, none⟩ : Diff)) i (x :: rs)) = _
        rw [seqTail_eq_map_range]

/-- C7, counterexample: an element that is present only on the right but
carries an empty scalar value (Python `None`) produces a `MISSING_L`
record whose `value_r` is null, contradicting the claimed non-null
invariant for the present side. -/
theorem C7_counterexample :
    diff [] [DataElement.mk 5 "D" (.scalar none)] =
      .ok [⟨.MISSING_L, 5, "D", none, none, none⟩] ∧
    (⟨.MISSING_L, 5, "D", none, none, none⟩ : Diff).value_r = none :=
  ⟨rfl, rfl⟩

/-- C7, amended: in every record of a diff, the missing side's value slot
is null (`MISSING_L → value_l = none`, `MISSING_R → value_r = none`) for
all inputs; the present side's value slot is non-null provided neither
input tree carries an empty (null) scalar value anywhere — with empty
scalar values it can be null, as the counterexample shows. -/
theorem C7_missing_value_invariant (l r : Dataset) (ds : List Diff)
    (h : diff l r = .ok ds) :
    ∀ d ∈ ds,
      ((d.diff_type = .MISSING_L → d.value_l = none) ∧
       (d.diff_type = .MISSING_R → d.value_r = none)) ∧
      (neDS l = true → neDS r = true →
        (d.diff_type = .MISSING_L → d.value_r ≠ none) ∧
        (d.diff_type = .MISSING_R → d.value_l ≠ none)) :=
  fun d hd =>
    ⟨diff_mem_missing h d hd, fun hnl hnr => diff_mem_present hnl hnr h d hd⟩

/-- C7, witness at a concrete one-sided scalar tree. -/
theorem C7_witness :
    (((⟨.MISSING_L, 5, "D", none, some (.str "v"), none⟩ : Diff).diff_type =
        .MISSING_L →
      (⟨.MISSING_L, 5, "D", none, some (.str "v"), none⟩ : Diff).value_l = none) ∧
     ((⟨.MISSING_L, 5, "D", none, some (.str "v"), none⟩ : Diff).diff_type =
        .MISSING_R →
      (⟨.MISSING_L, 5, "D", none, some (.str "v"), none⟩ : Diff).value_r = none)) ∧
    (neDS [] = true → neDS [DataElement.mk 5 "D" (.scalar (some "v"))] = true →
      ((⟨.MISSING_L, 5, "D", none, some (.str "v"), none⟩ : Diff).diff_type =
          .MISSING_L →
        (⟨.MISSING_L, 5, "D", none, some (.str "v"), none⟩ : Diff).value_r ≠ none) ∧
      ((⟨.MISSING_L, 5, "D", none, some (.str "v"), none⟩ : Diff).diff_type =
          .MISSING_R →
        (⟨.MISSING_L, 5, "D", none, some (.str "v"), none⟩ : Diff).value_l ≠ none)) :=
  C7_missing_value_invariant [] [DataElement.mk 5 "D" (.scalar (some "v"))]
    [⟨.MISSING_L, 5, "D", none, some (.str "v"), none⟩] rfl
    ⟨.MISSING_L, 5, "D", none, some (.str "v"), none⟩ (by simp)

/-- C8: a string longer than the column width is truncated so that the
formatted string's length equals the width exactly and ends in `"..."`;
and in a rendered line the description field is the right-aligned,
truncated `format_str_len` of the description at the description-column
budget, its length exactly that budget (so never exceeding it).  Widths
are taken at least 3 (the description budget at the default tag-column
width of 50 is 35, or 33 with a connector); below 3 Python's negative
slicing makes the formatter degenerate and no column can end in `"..."`. -/
theorem C8_truncation :
    (∀ (s : String) (l : Nat), 3 ≤ l → l < s.length →
      (format_str_len s l).length = l ∧ ∃ p, format_str_len s l = p ++ "...") ∧
    (∀ (d : Diff) (wTag wVal : Nat), 3 ≤ d.descBudget wTag →
      Diff.render d wTag wVal =
        d.symPart ++ " " ++ format_str_len d.description (d.descBudget wTag) ++
          (" - " ++ toString d.tag
            ++ " │ " ++ format_str_len (strOrNull d.value_l) wVal
            ++ " │ " ++ format_str_len (strOrNull d.value_r) wVal) ∧
      (format_str_len d.description (d.descBudget wTag)).length =
        d.descBudget wTag) :=
  ⟨fun s l h3 hgt => ⟨format_str_len_length s l h3, format_str_len_trunc s l h3 hgt⟩,
   fun d wTag wVal h3 => ⟨rfl, format_str_len_length _ _ h3⟩⟩

/-- C8, witness: a six-character string in a width-4 column. -/
theorem C8_truncation_witness : (format_str_len "abcdef" 4).length = 4 :=
  (C8_truncation.1 "abcdef" 4 (by decide) (by decide)).1

/-- C9: completeness of the empty result — for well-formed trees agreeing
in value kind at every shared tag, an empty diff implies structural
identity: same tag set, equal scalar values at every shared scalar tag,
and at every shared sequence tag sequences of equal length with pairwise
structurally identical item trees (`structIdentB`). -/
theorem C9_empty_diff_structural (A B : Dataset)
    (hwA : wfDS A = true) (hwB : wfDS B = true) (hk : kindsB A B = true)
    (h : diff A B = .ok []) : structIdentB A B = true :=
  diff_ok_nil_struct hwA hk h

/-- C9, witness at a concrete nested tree compared with itself. -/
theorem C9_witness :
    structIdentB
      [DataElement.mk 1 "S" (.sequence [[DataElement.mk 2 "T" (.scalar (some "x"))]])]
      [DataElement.mk 1 "S" (.sequence [[DataElement.mk 2 "T" (.scalar (some "x"))]])] =
      true :=
  C9_empty_diff_structural
    [DataElement.mk 1 "S" (.sequence [[DataElement.mk 2 "T" (.scalar (some "x"))]])]
    [DataElement.mk 1 "S" (.sequence [[DataElement.mk 2 "T" (.scalar (some "x"))]])]
    rfl rfl rfl rfl

/-- C10: every record of a top-level diff carries connector nothing,
`"┌"`, `"├"` or `"└"`; connectors never compose across nesting levels
because re-stamping at an enclosing sequence level overwrites deeper
connectors — at the concrete two-level nesting below, the inner
sequence-item header reaches the final output with `"├"`, not `"┌"`. -/
theorem C10_prefix_invariant :
    (∀ (l r : Dataset) (ds : List Diff), diff l r = .ok ds → ∀ d ∈ ds,
      d.pfx = none ∨ d.pfx = some "┌" ∨ d.pfx = some "├" ∨ d.pfx = some "└") ∧
    diff [DataElement.mk 10 "Outer" (.sequence [[DataElement.mk 20 "Inner"
            (.sequence [[DataElement.mk 30 "Leaf" (.scalar (some "x"))]])]])]
         [DataElement.mk 10 "Outer" (.sequence [[DataElement.mk 20 "Inner"
            (.sequence [[DataElement.mk 30 "Leaf" (.scalar (some "y"))]])]])] =
      .ok [⟨.DIFFERENT, 10, "[0] Outer", some placeholder, some placeholder, some "┌"⟩,
           ⟨.DIFFERENT, 20, "[0] Inner", some placeholder, some placeholder, some "├"⟩,
           ⟨.DIFFERENT, 30, "Leaf", some (.str "x"), some (.str "y"), some "└"⟩] :=
  ⟨fun l r ds h => diff_mem_pfx h, rfl⟩

/-- C10, witness: the connector of the inner header of the two-level
example is one of the four allowed connectors. -/
theorem C10_witness :
    (⟨.DIFFERENT, 20, "[0] Inner", some placeholder, some placeholder,
        some "├"⟩ : Diff).pfx = none ∨
    (⟨.DIFFERENT, 20, "[0] Inner", some placeholder, some placeholder,
        some "├"⟩ : Diff).pfx = some "┌" ∨
    (⟨.DIFFERENT, 20, "[0] Inner", some placeholder, some placeholder,
        some "├"⟩ : Diff).pfx = some "├" ∨
    (⟨.DIFFERENT, 20, "[0] Inner", some placeholder, some placeholder,
        some "├"⟩ : Diff).pfx = some "└" :=
  C10_prefix_invariant.1
    [DataElement.mk 10 "Outer" (.sequence [[DataElement.mk 20 "Inner"
        (.sequence [[DataElement.mk 30 "Leaf" (.scalar (some "x"))]])]])]
    [DataElement.mk 10 "Outer" (.sequence [[DataElement.mk 20 "Inner"
        (.sequence [[DataElement.mk 30 "Leaf" (.scalar (some "y"))]])]])]
    [⟨.DIFFERENT, 10, "[0] Outer", some placeholder, some placeholder, some "┌"⟩,
     ⟨.DIFFERENT, 20, "[0] Inner", some placeholder, some placeholder, some "├"⟩,
     ⟨.DIFFERENT, 30, "Leaf", some (.str "x"), some (.str "y"), some "└"⟩]
    rfl
    ⟨.DIFFERENT, 20, "[0] Inner", some placeholder, some placeholder, some "├"⟩
    (by simp)

end DcmDiff
